import Mathlib

/-!
# Verification of the keyring encryption module

Shallow embedding of the keyring library: a versioned symmetric-encryption
module that encrypts a string into a self-describing envelope
`base64(hmac ‖ iv ‖ ciphertext)`, decrypts it back given the key version,
and produces a salted SHA-1 digest.

Conventions of the embedding:
* JS byte buffers are `List Nat` with every element `< 256`.
* JS strings are `List Nat` of Unicode code points (`JsStr`); the
  string↔buffer conversions (`Buffer.from(str)` / `buf.toString()`) are the
  concrete UTF-8 codec below.
* The Node `crypto` hash primitives (`createHash("sha1")`,
  `createHmac("sha256", k)`) and `Buffer` base64 codec are translated
  concretely.  The AES-CBC block cipher (`createCipheriv` /
  `createDecipheriv`) is an opaque external primitive and is a parameter
  (`CipherPrim`) of every function that uses it; `decipherF` returns
  `Option` because `decipher.final()` can throw on bad padding.
* `crypto.randomBytes(16)` is modelled by passing the IV explicitly.
* JS exceptions are `Except KeyringError`; machine integers are `Nat`/`Int`
  with explicit `% 2^32` where 32-bit overflow matters.
-/

deriving instance DecidableEq for Except

set_option maxRecDepth 100000
set_option maxHeartbeats 1000000

namespace Keyring

/-- JS string, as its list of Unicode code points. -/
abbrev JsStr := List Nat

/-! ## 32-bit word primitives (`Nat` with explicit wrap-around) -/

/-- Truncate to a 32-bit word. -/
def m32 (x : Nat) : Nat := x % 4294967296

/-- 32-bit rotate right (input assumed `< 2^32`). -/
def rotr (x n : Nat) : Nat := ((x >>> n) ||| (x <<< (32 - n))) % 4294967296

/-- 32-bit rotate left (input assumed `< 2^32`). -/
def rotl (x n : Nat) : Nat := (((x <<< n) % 4294967296) ||| (x >>> (32 - n)))

/-- 32-bit bitwise complement. -/
def not32 (x : Nat) : Nat := 4294967295 ^^^ x

/-- Big-endian 32-bit words from a byte list (groups of four). -/
def bytesToWords : List Nat → List Nat
  | b0 :: b1 :: b2 :: b3 :: rest =>
      ((b0 <<< 24) ||| (b1 <<< 16) ||| (b2 <<< 8) ||| b3) :: bytesToWords rest
  | _ => []

/-- Big-endian bytes of one 32-bit word. -/
def wordBytes (w : Nat) : List Nat :=
  [(w >>> 24) % 256, (w >>> 16) % 256, (w >>> 8) % 256, w % 256]

/-- Iterate a function `n` times. -/
def iterate (f : α → α) (x : α) : Nat → α
  | 0 => x
  | n + 1 => iterate f (f x) n

/-- Big-endian 8-byte encoding of a 64-bit length. -/
def lenBytes64 (n : Nat) : List Nat :=
  [(n >>> 56) % 256, (n >>> 48) % 256, (n >>> 40) % 256, (n >>> 32) % 256,
   (n >>> 24) % 256, (n >>> 16) % 256, (n >>> 8) % 256, n % 256]

/-- Merkle–Damgård padding shared by SHA-1 and SHA-256: append `0x80`, zero
bytes up to 56 mod 64, then the bit length as 8 big-endian bytes. -/
def shaPad (msg : List Nat) : List Nat :=
  let zeros := (64 + 56 - ((msg.length + 1) % 64)) % 64
  msg ++ [0x80] ++ List.replicate zeros 0 ++ lenBytes64 (msg.length * 8)

/-- Fold a 64-byte-block compression function over a padded message.
`fuel` bounds the number of steps; each step consumes 64 bytes, so any
`fuel ≥ length` is enough (structural recursion on `fuel` keeps the
definition kernel-reducible). -/
def foldBlocks (compress : σ → List Nat → σ) : Nat → σ → List Nat → σ
  | 0, st, _ => st
  | _ + 1, st, [] => st
  | fuel + 1, st, l => foldBlocks compress fuel (compress st (l.take 64)) (l.drop 64)

/-! ## SHA-1 (the digest algorithm of `sha1`) -/

/-- SHA-1 working state: five 32-bit words. -/
structure Sha1State where
  a : Nat
  b : Nat
  c : Nat
  d : Nat
  e : Nat
deriving Repr, DecidableEq

/-- SHA-1 initial state. -/
def sha1Init : Sha1State :=
  ⟨1732584193, 4023233417, 2562383102, 271733878, 3285377520⟩

/-- One step of the SHA-1 message schedule on the reversed word list. -/
def sched1Step (r : List Nat) : List Nat :=
  rotl ((r.getD 2 0) ^^^ (r.getD 7 0) ^^^ (r.getD 13 0) ^^^ (r.getD 15 0)) 1 :: r

/-- SHA-1 message schedule: expand 16 words to 80. -/
def sha1Schedule (ws : List Nat) : List Nat :=
  (iterate sched1Step ws.reverse 64).reverse

/-- SHA-1 round function, selected by round index. -/
def sha1F (i b c d : Nat) : Nat :=
  if i < 20 then (b &&& c) ||| (not32 b &&& d)
  else if i < 40 then b ^^^ c ^^^ d
  else if i < 60 then (b &&& c) ||| (b &&& d) ||| (c &&& d)
  else b ^^^ c ^^^ d

/-- SHA-1 round constant, selected by round index. -/
def sha1K (i : Nat) : Nat :=
  if i < 20 then 1518500249
  else if i < 40 then 1859775393
  else if i < 60 then 2400959708
  else 3395469782

/-- One SHA-1 round: state transition for round `iw.1` with schedule word `iw.2`. -/
def sha1Round (st : Sha1State) (iw : Nat × Nat) : Sha1State :=
  let t := m32 (rotl st.a 5 + sha1F iw.1 st.b st.c st.d + st.e + sha1K iw.1 + iw.2)
  ⟨t, st.a, rotl st.b 30, st.c, st.d⟩

/-- SHA-1 compression of one 64-byte block. -/
def sha1Compress (st : Sha1State) (block : List Nat) : Sha1State :=
  let w := sha1Schedule (bytesToWords block)
  let f := ((List.range 80).zip w).foldl sha1Round st
  ⟨m32 (st.a + f.a), m32 (st.b + f.b), m32 (st.c + f.c), m32 (st.d + f.d), m32 (st.e + f.e)⟩

/-- SHA-1 of a byte list, as 20 bytes. -/
def sha1Bytes (msg : List Nat) : List Nat :=
  let p := shaPad msg
  let st := foldBlocks sha1Compress p.length sha1Init p
  wordBytes st.a ++ wordBytes st.b ++ wordBytes st.c ++ wordBytes st.d ++ wordBytes st.e

/-! ## SHA-256 and HMAC-SHA256 (the authenticator of `hmacDigest`) -/

/-- SHA-256 working state: eight 32-bit words. -/
structure Sha256State where
  a : Nat
  b : Nat
  c : Nat
  d : Nat
  e : Nat
  f : Nat
  g : Nat
  h : Nat
deriving Repr, DecidableEq

/-- SHA-256 initial state. -/
def sha256Init : Sha256State :=
  ⟨1779033703, 3144134277, 1013904242, 2773480762,
   1359893119, 2600822924, 528734635, 1541459225⟩

/-- SHA-256 round constants. -/
def sha256K : List Nat :=
  [1116352408, 1899447441, 3049323471, 3921009573, 961987163,
   1508970993, 2453635748, 2870763221, 3624381080, 310598401,
   607225278, 1426881987, 1925078388, 2162078206, 2614888103,
   3248222580, 3835390401, 4022224774, 264347078, 604807628,
   770255983, 1249150122, 1555081692, 1996064986, 2554220882,
   2821834349, 2952996808, 3210313671, 3336571891, 3584528711,
   113926993, 338241895, 666307205, 773529912, 1294757372,
   1396182291, 1695183700, 1986661051, 2177026350, 2456956037,
   2730485921, 2820302411, 3259730800, 3345764771, 3516065817,
   3600352804, 4094571909, 275423344, 430227734, 506948616,
   659060556, 883997877, 958139571, 1322822218, 1537002063,
   1747873779, 1955562222, 2024104815, 2227730452, 2361852424,
   2428436474, 2756734187, 3204031479, 3329325298]

/-- SHA-256 big Σ₀. -/
def bigSigma0 (x : Nat) : Nat := rotr x 2 ^^^ rotr x 13 ^^^ rotr x 22

/-- SHA-256 big Σ₁. -/
def bigSigma1 (x : Nat) : Nat := rotr x 6 ^^^ rotr x 11 ^^^ rotr x 25

/-- SHA-256 small σ₀. -/
def smallSigma0 (x : Nat) : Nat := rotr x 7 ^^^ rotr x 18 ^^^ (x >>> 3)

/-- SHA-256 small σ₁. -/
def smallSigma1 (x : Nat) : Nat := rotr x 17 ^^^ rotr x 19 ^^^ (x >>> 10)

/-- One step of the SHA-256 message schedule on the reversed word list. -/
def sched256Step (r : List Nat) : List Nat :=
  m32 (smallSigma1 (r.getD 1 0) + r.getD 6 0 + smallSigma0 (r.getD 14 0) + r.getD 15 0) :: r

/-- SHA-256 message schedule: expand 16 words to 64. -/
def sha256Schedule (ws : List Nat) : List Nat :=
  (iterate sched256Step ws.reverse 48).reverse

/-- One SHA-256 round with constant `kw.1` and schedule word `kw.2`. -/
def sha256Round (st : Sha256State) (kw : Nat × Nat) : Sha256State :=
  let t1 := m32 (st.h + bigSigma1 st.e + ((st.e &&& st.f) ^^^ (not32 st.e &&& st.g))
                 + kw.1 + kw.2)
  let t2 := m32 (bigSigma0 st.a + ((st.a &&& st.b) ^^^ (st.a &&& st.c) ^^^ (st.b &&& st.c)))
  ⟨m32 (t1 + t2), st.a, st.b, st.c, m32 (st.d + t1), st.e, st.f, st.g⟩

/-- SHA-256 compression of one 64-byte block. -/
def sha256Compress (st : Sha256State) (block : List Nat) : Sha256State :=
  let w := sha256Schedule (bytesToWords block)
  let f := (sha256K.zip w).foldl sha256Round st
  ⟨m32 (st.a + f.a), m32 (st.b + f.b), m32 (st.c + f.c), m32 (st.d + f.d),
   m32 (st.e + f.e), m32 (st.f + f.f), m32 (st.g + f.g), m32 (st.h + f.h)⟩

/-- SHA-256 of a byte list, as 32 bytes. -/
def sha256 (msg : List Nat) : List Nat :=
  let p := shaPad msg
  let st := foldBlocks sha256Compress p.length sha256Init p
  wordBytes st.a ++ wordBytes st.b ++ wordBytes st.c ++ wordBytes st.d ++
  wordBytes st.e ++ wordBytes st.f ++ wordBytes st.g ++ wordBytes st.h

/-- HMAC key preparation: hash keys longer than the 64-byte block, then
zero-pad to 64 bytes. -/
def hmacKeyPrep (key : List Nat) : List Nat :=
  let k := if key.length > 64 then sha256 key else key
  k ++ List.replicate (64 - k.length) 0

/-- HMAC-SHA256, the model of `crypto.createHmac("sha256", key)` used by
`hmacDigest` in the source. -/
def hmacSha256 (key msg : List Nat) : List Nat :=
  let k := hmacKeyPrep key
  let ipad := k.map (fun b => b ^^^ 0x36)
  let opad := k.map (fun b => b ^^^ 0x5c)
  sha256 (opad ++ sha256 (ipad ++ msg))

/-! ## Lowercase hex rendering (`hash.digest("hex")`) -/

/-- Lowercase hex digit. -/
def hexDigitChar (n : Nat) : Char := "0123456789abcdef".data.getD n '0'

/-- Lowercase hex characters of a byte list, two per byte. -/
def hexChars : List Nat → List Char
  | [] => []
  | b :: rest => hexDigitChar (b / 16) :: hexDigitChar (b % 16) :: hexChars rest

/-- Lowercase hex string of a byte list. -/
def hexString (bs : List Nat) : String := ⟨hexChars bs⟩

/-! ## Base64 (`buf.toString("base64")` / `Buffer.from(s, "base64")`) -/

/-- The base64 alphabet. -/
def b64Alphabet : List Char :=
  "ABCDEFGHIJKLMNOPQRSTUVWXYZabcdefghijklmnopqrstuvwxyz0123456789+/".data

/-- Character for a six-bit value. -/
def b64Char (n : Nat) : Char := b64Alphabet.getD n 'A'

/-- Six-bit value of an alphabet character. -/
def b64Val (c : Char) : Nat := b64Alphabet.indexOf c

/-- Bytes to six-bit groups, three bytes to four sextets, with the partial
trailing chunk encoded into two or three sextets. -/
def bytesToSextets : List Nat → List Nat
  | a :: b :: c :: rest =>
      a / 4 :: ((a % 4) * 16 + b / 16) :: ((b % 16) * 4 + c / 64) :: c % 64 ::
      bytesToSextets rest
  | [a, b] => [a / 4, (a % 4) * 16 + b / 16, (b % 16) * 4]
  | [a] => [a / 4, (a % 4) * 16]
  | [] => []

/-- Six-bit groups back to bytes, four sextets to three bytes, with partial
trailing chunks of three or two sextets giving two or one bytes. -/
def sextetsToBytes : List Nat → List Nat
  | w :: x :: y :: z :: rest =>
      (w * 4 + x / 16) :: ((x % 16) * 16 + y / 4) :: ((y % 4) * 64 + z) ::
      sextetsToBytes rest
  | [w, x, y] => [w * 4 + x / 16, (x % 16) * 16 + y / 4]
  | [w, x] => [w * 4 + x / 16]
  | _ => []

/-- `'='` padding appended by the encoder, by input length mod 3. -/
def b64Pad (len : Nat) : List Char :=
  if len % 3 = 1 then ['=', '='] else if len % 3 = 2 then ['='] else []

/-- Base64 encoding of a byte list. -/
def base64Encode (bs : List Nat) : String :=
  ⟨(bytesToSextets bs).map b64Char ++ b64Pad bs.length⟩

/-- Base64 decoding: like Node's lenient decoder, characters outside the
alphabet (including `'='` and whitespace) are skipped, and trailing bits of
an incomplete group are dropped. -/
def base64Decode (s : String) : List Nat :=
  sextetsToBytes ((s.data.filter (fun c => b64Alphabet.contains c)).map b64Val)

/-! ## UTF-8 (`Buffer.from(str)` / `buf.toString()`) -/

/-- UTF-8 encoding of one code point. -/
def utf8EncodeChar (c : Nat) : List Nat :=
  if c < 0x80 then [c]
  else if c < 0x800 then [0xC0 + c / 64, 0x80 + c % 64]
  else if c < 0x10000 then [0xE0 + c / 4096, 0x80 + c / 64 % 64, 0x80 + c % 64]
  else [0xF0 + c / 262144, 0x80 + c / 4096 % 64, 0x80 + c / 64 % 64, 0x80 + c % 64]

/-- UTF-8 encoding of a code-point list. -/
def utf8Encode : JsStr → List Nat
  | [] => []
  | c :: rest => utf8EncodeChar c ++ utf8Encode rest

/-- UTF-8 decoding back to code points; a lead byte below `0xC0` stands for
itself, a multi-byte lead consumes its continuation bytes, each contributing
its low six bits, and a sequence truncated by the end of input yields the
lead byte alone.  The list patterns are spelled out per length so every
equation is a plain structural one. -/
def utf8Decode : List Nat → JsStr
  | [] => []
  | [b] => [b]
  | [b, b1] =>
    if b < 0xC0 then b :: utf8Decode [b1]
    else if b < 0xE0 then [(b - 0xC0) * 64 + b1 % 64]
    else [b]
  | [b, b1, b2] =>
    if b < 0xC0 then b :: utf8Decode [b1, b2]
    else if b < 0xE0 then ((b - 0xC0) * 64 + b1 % 64) :: utf8Decode [b2]
    else if b < 0xF0 then [(b - 0xE0) * 4096 + (b1 % 64) * 64 + b2 % 64]
    else [b]
  | b :: b1 :: b2 :: b3 :: r =>
    if b < 0xC0 then b :: utf8Decode (b1 :: b2 :: b3 :: r)
    else if b < 0xE0 then ((b - 0xC0) * 64 + b1 % 64) :: utf8Decode (b2 :: b3 :: r)
    else if b < 0xF0 then ((b - 0xE0) * 4096 + (b1 % 64) * 64 + b2 % 64) :: utf8Decode (b3 :: r)
    else ((b - 0xF0) * 262144 + (b1 % 64) * 4096 + (b2 % 64) * 64 + b3 % 64) :: utf8Decode r

/-- Unicode scalar value: a code point that is not a surrogate.  JS strings
holding lone surrogates are not preserved by Node's UTF-8 conversion, so
round-trip statements assume scalar values. -/
def isScalar (c : Nat) : Prop := c < 0xD800 ∨ (0xE000 ≤ c ∧ c < 0x110000)

instance (c : Nat) : Decidable (isScalar c) := by unfold isScalar; infer_instance

/-- Code points of a Lean string literal (concrete-input helper). -/
def strCp (s : String) : JsStr := s.data.map Char.toNat

/-! ## JS helpers: `parseInt` and strict equality on possibly-NaN numbers -/

/-- `parseInt(s, 10)`: skip whitespace, optional sign, longest digit prefix;
`none` models `NaN` (no digit found). -/
def jsParseInt (s : String) : Option Int :=
  let l := s.data.dropWhile (fun c => c = ' ' ∨ c = '\t' ∨ c = '\n' ∨ c = '\r')
  match l with
  | '-' :: rest =>
      let d := rest.takeWhile Char.isDigit
      if d.isEmpty then none
      else some (-(d.foldl (fun a c => a * 10 + (c.toNat - 48)) 0 : Nat))
  | '+' :: rest =>
      let d := rest.takeWhile Char.isDigit
      if d.isEmpty then none
      else some ((d.foldl (fun a c => a * 10 + (c.toNat - 48)) 0 : Nat))
  | _ =>
      let d := l.takeWhile Char.isDigit
      if d.isEmpty then none
      else some ((d.foldl (fun a c => a * 10 + (c.toNat - 48)) 0 : Nat))

/-- A JS value handed to `decrypt` as the keyring id: an (integer-valued,
possibly NaN) number or a string. -/
inductive JsVal where
  | num (n : Option Int)
  | str (s : String)
deriving Repr, DecidableEq

/-- `parseInt(v, 10)` on a JS value: an integer number reparses to itself
(`parseInt` stringifies its argument first), `NaN` reparses to `NaN`, a
string is parsed. -/
def jsParseIntOfVal : JsVal → Option Int
  | .num n => n
  | .str s => jsParseInt s

/-- Strict equality `===` on numbers where `none` is `NaN`: `NaN` is equal
to nothing, including itself. -/
def jsStrictEq : Option Int → Option Int → Bool
  | some a, some b => a == b
  | _, _ => false

/-- `a > b` on numbers where `none` is `NaN`: any comparison with `NaN` is
false. -/
def jsGT : Option Int → Option Int → Bool
  | some a, some b => a > b
  | _, _ => false

/-! ## The keyring module -/

/-- Error taxonomy of the module; each constructor stands for one `throw`
site of the source (or of the external cipher). -/
inductive KeyringError where
  /-- "Kindly include the salt option; …" -/
  | missingSalt
  /-- "Encryption algorithm not recognized or unsupported: …" -/
  | unsupportedAlgorithm (alg : String)
  /-- "Expected key to be N bytes long; got M instead" -/
  | keyLengthMismatch (expected actual : Nat)
  /-- "All keyring keys must be integer numbers" -/
  | invalidKeyId
  /-- "You must initialize the keyring" -/
  | emptyKeyring
  /-- "key=… is not available on keyring" -/
  | unknownKeyId
  /-- "Expected HMAC to be …; got … instead" -/
  | integrityError
  /-- `decipher.final()` threw (bad padding / cipher failure). -/
  | decryptionError
deriving Repr, DecidableEq

/-- One normalized key: parsed id (with `none` for `NaN`) and the two
sub-keys split from the secret. -/
structure KeyMaterial where
  id : Option Int
  encryptionKey : List Nat
  signingKey : List Nat
deriving Repr, DecidableEq

/-- A raw secret: a byte buffer, or a base64 string (`keyBuffer` assumes
all string keys are base64-encoded). -/
inductive SecretInput where
  | buf (bytes : List Nat)
  | b64 (s : String)
deriving Repr, DecidableEq

/-- `keyBuffer`: pass buffers through, decode base64 strings. -/
def keyBuffer : SecretInput → List Nat
  | .buf b => b
  | .b64 s => base64Decode s

/-- `keySizes`: expected half-key size per supported algorithm. -/
def keySizes (alg : String) : Option Nat :=
  if alg = "aes-128-cbc" then some 16
  else if alg = "aes-192-cbc" then some 24
  else if alg = "aes-256-cbc" then some 32
  else none

/-- The input `options` object: absent fields are `none`
(`Object.assign({}, defaultKeyringOptions, options)` fills the encryption
default; an absent salt is an error). -/
structure OptionsIn where
  encryption : Option String := none
  salt : Option JsStr := none
deriving Repr, DecidableEq

/-- The body of the reduce callback of `normalizeKeys`: decode the secret
(`keyBuffer`), reject a length other than `2×keySize`
(`expectedKeySize = keySize * 2` is inlined), split it into the signing
(first half) and encryption (second half) sub-keys, and parse the id with
`parseInt(id, 10)`. -/
def normalizeStep (keySize : Nat) (acc : Except KeyringError (List KeyMaterial))
    (p : String × SecretInput) : Except KeyringError (List KeyMaterial) := do
  let buffer ← acc
  let secret := keyBuffer p.2
  if secret.length ≠ keySize * 2 then
    throw (.keyLengthMismatch (keySize * 2) secret.length)
  else
    pure (buffer ++ [{ id := jsParseInt p.1,
                       signingKey := secret.take keySize,
                       encryptionKey := secret.drop keySize }])

/-- `normalizeKeys`: reduce the raw key map (as the key/secret pair list in
enumeration order) with `normalizeStep`. -/
def normalizeKeys (keys : List (String × SecretInput)) (keySize : Nat) :
    Except KeyringError (List KeyMaterial) :=
  keys.foldl (normalizeStep keySize) (pure [])

/-- The key material `normalizeKeys` builds from one input pair (the value
pushed by a successful `normalizeStep`). -/
def normOne (keySize : Nat) (p : String × SecretInput) : KeyMaterial :=
  { id := jsParseInt p.1,
    signingKey := (keyBuffer p.2).take keySize,
    encryptionKey := (keyBuffer p.2).drop keySize }

/-- `validateKeyring`: reject an empty list, and reject any `NaN` id. -/
def validateKeyring (keys : List KeyMaterial) : Except KeyringError Unit :=
  if keys.length = 0 then throw .emptyKeyring
  else if keys.any (fun k => k.id = none) then throw .invalidKeyId
  else pure ()

/-- `currentKey`: `keys.reduce((a, b) => a.id > b.id ? a : b)`; `none`
models the `TypeError` of reducing an empty array (never reached after
validation). -/
def currentKey : List KeyMaterial → Option KeyMaterial
  | [] => none
  | k :: rest => some (rest.foldl (fun a b => if jsGT a.id b.id then a else b) k)

/-- `findKey`: first key with `parseInt(key.id) === parseInt(id, 10)`,
else the "not available" error. -/
def findKey (keys : List KeyMaterial) (id : JsVal) : Except KeyringError KeyMaterial :=
  match keys.find? (fun k => jsStrictEq k.id (jsParseIntOfVal id)) with
  | some k => pure k
  | none => throw .unknownKeyId

/-- `verifySignature`: constant-time comparison — false on length mismatch,
otherwise OR-accumulate the XOR of every byte pair and compare with zero. -/
def verifySignature (expected actual : List Nat) : Bool :=
  if expected.length ≠ actual.length then false
  else ((expected.zip actual).foldl (fun acc p => acc ||| (p.1 ^^^ p.2)) 0) == 0

/-- The external AES-CBC cipher (`crypto.createCipheriv` /
`crypto.createDecipheriv`), abstract: `cipherF alg key iv msg` is the
ciphertext produced by `update`+`final`, and `decipherF alg key iv ct` is
`none` when `decipher.final()` throws (bad padding). -/
structure CipherPrim where
  cipherF : String → List Nat → List Nat → List Nat → List Nat
  decipherF : String → List Nat → List Nat → List Nat → Option (List Nat)

/-- `encrypt`: pick the current key, CBC-encrypt the UTF-8 bytes of the
message under a fresh `iv` (passed explicitly, for `crypto.randomBytes(16)`),
HMAC `iv ‖ ciphertext`, assemble `base64(hmac ‖ iv ‖ ciphertext)`, and
compute the salted SHA-1 digest.  Returns the `[envelope, keyId, digest]`
triple; `none` models the crash of `currentKey` on an empty array. -/
def encrypt (C : CipherPrim) (keys : List KeyMaterial) (encryption : String)
    (salt : JsStr) (iv : List Nat) (message : JsStr) :
    Option (String × Option Int × String) :=
  match currentKey keys with
  | none => none
  | some key =>
    let encrypted := C.cipherF encryption key.encryptionKey iv (utf8Encode message)
    let hmac := hmacSha256 key.signingKey (iv ++ encrypted)
    let returnValue := base64Encode (hmac ++ iv ++ encrypted)
    let digest := hexString (sha1Bytes (utf8Encode (message ++ salt)))
    some (returnValue, key.id, digest)

/-- Events of one `decrypt` call, in execution order: running the block
decipher (`decipher.update`/`final`), and running `verifySignature`. -/
inductive DecEvent where
  | decipherRun
  | verifyRun
deriving Repr, DecidableEq

/-- `decrypt`: base64-decode the envelope, split it at offsets 32 and 48,
run the block decipher, recompute the HMAC over `iv ‖ ciphertext`, and
only then verify; mismatch throws the integrity error, otherwise the
decrypted bytes are decoded back to a string.  The second component is the
trace of cipher/verify events in the order the source performs them. -/
def decrypt (C : CipherPrim) (key : KeyMaterial) (encryption : String)
    (message : String) : Except KeyringError JsStr × List DecEvent :=
  let decoded := base64Decode message
  let hmac := decoded.take 32
  let iv := (decoded.drop 32).take 16
  let encrypted := decoded.drop 48
  match C.decipherF encryption key.encryptionKey iv encrypted with
  | none => (throw .decryptionError, [.decipherRun])
  | some decrypted =>
    let expectedHmac := hmacSha256 key.signingKey (iv ++ encrypted)
    if verifySignature expectedHmac hmac then
      (pure (utf8Decode decrypted), [.decipherRun, .verifyRun])
    else
      (throw .integrityError, [.decipherRun, .verifyRun])

/-- A constructed keyring: the validated key list and the frozen options
the returned closures capture. -/
structure KeyringObj where
  keys : List KeyMaterial
  encryption : String
  salt : JsStr
deriving Repr, DecidableEq

/-- `keyring(keys, options)`: merge the default options (so the effective
algorithm is `options.encryption.getD "aes-128-cbc"`), require a salt,
resolve the key size (rejecting unsupported algorithms), normalize and
validate the keys. -/
def keyring (keys : List (String × SecretInput)) (options : OptionsIn) :
    Except KeyringError KeyringObj :=
  match options.salt with
  | none => throw .missingSalt
  | some salt =>
    match keySizes (options.encryption.getD "aes-128-cbc") with
    | none => throw (.unsupportedAlgorithm (options.encryption.getD "aes-128-cbc"))
    | some keySize => do
      let ks ← normalizeKeys keys keySize
      validateKeyring ks
      pure { keys := ks, encryption := options.encryption.getD "aes-128-cbc", salt := salt }

/-- The facade's `encrypt` closure. -/
def krEncrypt (C : CipherPrim) (kr : KeyringObj) (iv : List Nat) (message : JsStr) :
    Option (String × Option Int × String) :=
  encrypt C kr.keys kr.encryption kr.salt iv message

/-- The facade's `decrypt` closure: `decrypt(findKey(keys, keyringId), …)`.
The trace is empty when `findKey` already threw. -/
def krDecrypt (C : CipherPrim) (kr : KeyringObj) (message : String) (keyringId : JsVal) :
    Except KeyringError JsStr × List DecEvent :=
  match findKey kr.keys keyringId with
  | .error e => (throw e, [])
  | .ok key => decrypt C key kr.encryption message

/-- The facade's `digest` closure: salted SHA-1 of `` `${message}${salt}` ``
in lowercase hex (the salt is present by construction, so the missing-salt
throw of `sha1` is unreachable here). -/
def krDigest (kr : KeyringObj) (message : JsStr) : String :=
  hexString (sha1Bytes (utf8Encode (message ++ kr.salt)))

/-- The facade's `currentId` closure, `currentKey(keys).id`; the outer
`Option` collapse is harmless because the keys are nonempty and NaN-free
after validation. -/
def krCurrentId (kr : KeyringObj) : Option Int :=
  match currentKey kr.keys with
  | none => none
  | some k => k.id

/-- Flip bit `k` of the byte at index `i`. -/
def flipBit (bs : List Nat) (i k : Nat) : List Nat :=
  bs.set i ((bs.getD i 0) ^^^ (1 <<< k))

/-! ## Concrete instances used by witnesses and counterexamples

A toy conforming cipher: the "ciphertext" is the plaintext with one
padding byte `0` appended, and deciphering checks that padding byte —
mimicking how CBC padding makes `decipher.final()` fail on some tampered
ciphertexts.  It satisfies everything the theorems assume of the external
cipher: deciphering inverts enciphering, and output bytes are bytes. -/
def toyCipher : CipherPrim where
  cipherF := fun _ _ _ msg => msg ++ [0]
  decipherF := fun _ _ _ ct => if ct.getLast? = some 0 then some ct.dropLast else none

/-- A 32-byte toy secret (16-byte signing key ‖ 16-byte encryption key). -/
def wSecretBytes : List Nat := (List.range 32).map (fun i => i + 10)

/-- A second 32-byte toy secret, for rotation scenarios. -/
def wSecretBytes2 : List Nat := (List.range 32).map (fun i => i + 100)

/-- The key material normalized from `wSecretBytes` under id 0. -/
def wKey0 : KeyMaterial :=
  { id := some 0,
    signingKey := (List.range 16).map (fun i => i + 10),
    encryptionKey := (List.range 16).map (fun i => i + 26) }

/-- The key material normalized from `wSecretBytes2` under id 1. -/
def wKey1 : KeyMaterial :=
  { id := some 1,
    signingKey := (List.range 16).map (fun i => i + 100),
    encryptionKey := (List.range 16).map (fun i => i + 116) }

/-- A one-key keyring over `wSecretBytes`, salt `""`. -/
def wKr : KeyringObj := { keys := [wKey0], encryption := "aes-128-cbc", salt := [] }

/-- The `wKr` keyring expanded with `wSecretBytes2` under id 1. -/
def wKr2 : KeyringObj := { keys := [wKey0, wKey1], encryption := "aes-128-cbc", salt := [] }

/-- A one-key keyring with salt `"a"` (for the digest vector). -/
def wKrA : KeyringObj := { keys := [wKey0], encryption := "aes-128-cbc", salt := strCp "a" }

/-- A fixed 16-byte IV for concrete runs. -/
def wIv : List Nat := List.range 16

/-- The envelope of `encrypt("42")` under `wKr`/`toyCipher`/`wIv`. -/
def wEnv : String := ((krEncrypt toyCipher wKr wIv (strCp "42")).getD ("", none, "")).1

/-- The digest of `encrypt("42")` under `wKr`. -/
def wDg : String := krDigest wKr (strCp "42")

/-- An options record with salt `""`. -/
def wOpts : OptionsIn := { salt := some [] }

/-- An envelope whose HMAC region is all zeros but whose ciphertext (`[0]`)
still deciphers under `toyCipher`: a tampered input for trace inspection. -/
def c3msg : String := base64Encode (List.replicate 32 0 ++ wIv ++ [0])

/-- Whether a string is the decimal representation of an integer — the
reading of "representable as an integer" for an input key id. -/
def strIsInteger (s : String) : Bool :=
  let l := match s.data with
    | '-' :: r => r
    | l => l
  !l.isEmpty && l.all Char.isDigit

/-- A key map whose only id, `"1.5"`, is not an integer. -/
def c7Keys : List (String × SecretInput) := [("1.5", .buf wSecretBytes)]

/-- The key material normalized from `wSecretBytes` under id 1 (what the
constructor builds from the id strings `"1.5"`, `"1"` or `"01"`). -/
def c9Key : KeyMaterial :=
  { id := some 1,
    signingKey := (List.range 16).map (fun i => i + 10),
    encryptionKey := (List.range 16).map (fun i => i + 26) }

/-- The keyring the constructor builds from `c7Keys`. -/
def c7Kr : KeyringObj := { keys := [c9Key], encryption := "aes-128-cbc", salt := [] }

/-- A key map with two distinct string keys, `"1"` and `"01"`, that parse
to the same integer id 1 (legal as a JS object: its property names differ). -/
def c8Keys : List (String × SecretInput) :=
  [("1", .buf wSecretBytes), ("01", .buf wSecretBytes2)]

/-- The keyring the constructor builds from `c8Keys`: two keys, both id 1. -/
def c8Kr : KeyringObj :=
  { keys := [c9Key,
             { id := some 1,
               signingKey := (List.range 16).map (fun i => i + 100),
               encryptionKey := (List.range 16).map (fun i => i + 116) }],
    encryption := "aes-128-cbc", salt := [] }

/-! ## Arithmetic and bitwise helper lemmas -/

theorem lor_eq_zero_parts {a b : Nat} (h : a ||| b = 0) : a = 0 ∧ b = 0 := by
  constructor <;>
    · apply Nat.eq_of_testBit_eq
      intro i
      have hbit := congrArg (fun x => Nat.testBit x i) h
      simp only [Nat.testBit_lor, Nat.zero_testBit, Bool.or_eq_false_iff] at hbit
      simp [hbit.1, hbit.2, Nat.zero_testBit]

theorem xor_byte_lt {a b : Nat} (ha : a < 256) (hb : b < 256) : a ^^^ b < 256 := by
  have h : a ^^^ b = Nat.bitwise bne a b := rfl
  have := @Nat.bitwise_lt bne a b 8 (by omega) (by omega)
  omega

theorem flip_ne {a k : Nat} : a ^^^ (1 <<< k) ≠ a := by
  intro h
  have h2 : a ^^^ (a ^^^ (1 <<< k)) = a ^^^ a := congrArg (a ^^^ ·) h
  rw [Nat.xor_cancel_left, Nat.xor_self] at h2
  have : (0 : Nat) < 1 <<< k := by
    rw [Nat.one_shiftLeft]
    exact Nat.pos_pow_of_pos k (by omega)
  omega

/-! ## `verifySignature` is equality on equal-length byte lists -/

theorem verify_fold_self (l : List Nat) (acc : Nat) :
    (l.zip l).foldl (fun acc p => acc ||| (p.1 ^^^ p.2)) acc = acc := by
  induction l generalizing acc with
  | nil => rfl
  | cons a l ih => simp only [List.zip_cons_cons, List.foldl_cons, Nat.xor_self,
      Nat.or_zero, ih]

theorem verifySignature_self (l : List Nat) : verifySignature l l = true := by
  simp [verifySignature, verify_fold_self]

theorem verify_fold_zero (l : List (Nat × Nat)) (acc : Nat)
    (h : l.foldl (fun acc p => acc ||| (p.1 ^^^ p.2)) acc = 0) :
    acc = 0 ∧ ∀ p ∈ l, p.1 = p.2 := by
  induction l generalizing acc with
  | nil => simpa using h
  | cons q l ih =>
    simp only [List.foldl_cons] at h
    obtain ⟨hacc, hrest⟩ := ih _ h
    obtain ⟨h1, h2⟩ := lor_eq_zero_parts hacc
    refine ⟨h1, ?_⟩
    intro p hp
    rcases List.mem_cons.mp hp with hp | hp
    · subst hp; exact Nat.xor_eq_zero.mp h2
    · exact hrest p hp

theorem verifySignature_eq {x y : List Nat} (hlen : x.length = y.length)
    (h : verifySignature x y = true) : x = y := by
  unfold verifySignature at h
  rw [if_neg (by omega)] at h
  have hz := verify_fold_zero (x.zip y) 0 (by simpa using h)
  have hpt := hz.2
  clear h hz
  induction x generalizing y with
  | nil => cases y with
    | nil => rfl
    | cons b ys => simp at hlen
  | cons a xs ih =>
    cases y with
    | nil => simp at hlen
    | cons b ys =>
      have hab : a = b := hpt (a, b) (by simp [List.zip_cons_cons])
      have : xs = ys := by
        apply ih (by simpa using hlen)
        intro p hp
        exact hpt p (by simp [List.zip_cons_cons, hp])
      simp [hab, this]

theorem verifySignature_ne {x y : List Nat} (hlen : x.length = y.length)
    (h : x ≠ y) : verifySignature x y = false := by
  cases hv : verifySignature x y with
  | false => rfl
  | true => exact absurd (verifySignature_eq hlen hv) h

/-! ## Output shape of the hash primitives -/

theorem wordBytes_length (w : Nat) : (wordBytes w).length = 4 := rfl

theorem wordBytes_lt (w : Nat) : ∀ b ∈ wordBytes w, b < 256 := by
  intro b hb
  simp only [wordBytes, List.mem_cons, List.not_mem_nil, or_false] at hb
  rcases hb with h | h | h | h <;> subst h <;> exact Nat.mod_lt _ (by omega)

theorem sha256_length (m : List Nat) : (sha256 m).length = 32 := by
  simp [sha256, wordBytes]

theorem sha256_lt (m : List Nat) : ∀ b ∈ sha256 m, b < 256 := by
  intro b hb
  simp only [sha256, List.mem_append] at hb
  rcases hb with ((((((h | h) | h) | h) | h) | h) | h) | h <;> exact wordBytes_lt _ b h

theorem hmacSha256_length (k m : List Nat) : (hmacSha256 k m).length = 32 :=
  sha256_length _

theorem hmacSha256_lt (k m : List Nat) : ∀ b ∈ hmacSha256 k m, b < 256 :=
  sha256_lt _

theorem sha1Bytes_length (m : List Nat) : (sha1Bytes m).length = 20 := by
  simp [sha1Bytes, wordBytes]

theorem sha1Bytes_lt (m : List Nat) : ∀ b ∈ sha1Bytes m, b < 256 := by
  intro b hb
  simp only [sha1Bytes, List.mem_append] at hb
  rcases hb with (((h | h) | h) | h) | h <;> exact wordBytes_lt _ b h

/-! ## Hex rendering shape -/

theorem hexChars_length (bs : List Nat) : (hexChars bs).length = 2 * bs.length := by
  induction bs with
  | nil => rfl
  | cons b rest ih => simp [hexChars, ih]; omega

theorem hexDigitChar_mem (n : Nat) : hexDigitChar n ∈ "0123456789abcdef".data := by
  unfold hexDigitChar
  rw [List.getD_eq_getElem?_getD]
  cases h : "0123456789abcdef".data[n]? with
  | none => decide
  | some c =>
    have := List.getElem?_mem h
    simpa using this

theorem hexChars_mem (bs : List Nat) : ∀ c ∈ hexChars bs, c ∈ "0123456789abcdef".data := by
  induction bs with
  | nil => intro c hc; simp [hexChars] at hc
  | cons b rest ih =>
    intro c hc
    simp only [hexChars, List.mem_cons] at hc
    rcases hc with h | h | h
    · exact h ▸ hexDigitChar_mem _
    · exact h ▸ hexDigitChar_mem _
    · exact ih c h

/-! ## Base64 round-trip -/

theorem bytesToSextets_lt (bs : List Nat) (h : ∀ b ∈ bs, b < 256) :
    ∀ x ∈ bytesToSextets bs, x < 64 := by
  induction bs using bytesToSextets.induct with
  | case1 a b c rest ih =>
    intro x hx
    have ha := h a (by simp)
    have hb := h b (by simp)
    have hc := h c (by simp)
    simp only [bytesToSextets, List.mem_cons] at hx
    rcases hx with hx | hx | hx | hx | hx
    · omega
    · omega
    · omega
    · omega
    · exact ih (fun y hy => h y (by simp [hy])) x hx
  | case2 a b =>
    intro x hx
    have ha := h a (by simp)
    have hb := h b (by simp)
    simp only [bytesToSextets, List.mem_cons, List.not_mem_nil, or_false] at hx
    rcases hx with hx | hx | hx <;> omega
  | case3 a =>
    intro x hx
    have ha := h a (by simp)
    simp only [bytesToSextets, List.mem_cons, List.not_mem_nil, or_false] at hx
    rcases hx with hx | hx <;> omega
  | case4 => intro x hx; simp [bytesToSextets] at hx

theorem sextets_bytes_id (bs : List Nat) (h : ∀ b ∈ bs, b < 256) :
    sextetsToBytes (bytesToSextets bs) = bs := by
  induction bs using bytesToSextets.induct with
  | case1 a b c rest ih =>
    have ha := h a (by simp)
    have hb := h b (by simp)
    have hc := h c (by simp)
    simp only [bytesToSextets, sextetsToBytes]
    rw [ih (fun y hy => h y (by simp [hy]))]
    congr 1
    · omega
    · congr 1
      · omega
      · congr 1
        omega
  | case2 a b =>
    have ha := h a (by simp)
    have hb := h b (by simp)
    simp only [bytesToSextets, sextetsToBytes]
    congr 1
    · omega
    · congr 1
      omega
  | case3 a =>
    have ha := h a (by simp)
    simp only [bytesToSextets, sextetsToBytes]
    congr 1
    omega
  | case4 => rfl

theorem b64Char_mem : ∀ n, n < 64 → b64Alphabet.contains (b64Char n) = true := by decide

theorem b64Val_b64Char : ∀ n, n < 64 → b64Val (b64Char n) = n := by decide

theorem base64_roundtrip (bs : List Nat) (h : ∀ b ∈ bs, b < 256) :
    base64Decode (base64Encode bs) = bs := by
  have hsx := bytesToSextets_lt bs h
  show sextetsToBytes
      ((((bytesToSextets bs).map b64Char ++ b64Pad bs.length).filter
        (fun c => b64Alphabet.contains c)).map b64Val) = bs
  rw [List.filter_append]
  have h1 : ((bytesToSextets bs).map b64Char).filter (fun c => b64Alphabet.contains c)
      = (bytesToSextets bs).map b64Char := by
    rw [List.filter_eq_self]
    intro a ha
    obtain ⟨x, hx, rfl⟩ := List.mem_map.mp ha
    exact b64Char_mem x (hsx x hx)
  have h2 : (b64Pad bs.length).filter (fun c => b64Alphabet.contains c) = [] := by
    unfold b64Pad
    split
    · decide
    · split
      · decide
      · decide
  rw [h1, h2, List.append_nil, List.map_map]
  have h3 : (bytesToSextets bs).map (b64Val ∘ b64Char) = (bytesToSextets bs).map id := by
    apply List.map_congr_left
    intro a ha
    exact b64Val_b64Char a (hsx a ha)
  rw [h3, List.map_id]
  exact sextets_bytes_id bs h

/-! ## UTF-8 round-trip -/

theorem utf8DecodeChar_cons (c : Nat) (rest : List Nat) (h : c < 0x110000) :
    utf8Decode (utf8EncodeChar c ++ rest) = c :: utf8Decode rest := by
  unfold utf8EncodeChar
  by_cases h1 : c < 0x80
  · rw [if_pos h1]
    show utf8Decode (c :: rest) = c :: utf8Decode rest
    match rest with
    | [] => rfl
    | [x1] => simp only [utf8Decode]; rw [if_pos (by omega)]
    | [x1, x2] => simp only [utf8Decode]; rw [if_pos (by omega)]
    | x1 :: x2 :: x3 :: r => simp only [utf8Decode]; rw [if_pos (by omega)]
  · rw [if_neg h1]
    by_cases h2 : c < 0x800
    · rw [if_pos h2]
      show utf8Decode ((0xC0 + c / 64) :: (0x80 + c % 64) :: rest) = c :: utf8Decode rest
      match rest with
      | [] =>
        simp only [utf8Decode]
        rw [if_neg (by omega), if_pos (by omega)]
        congr 1
        omega
      | [x1] =>
        simp only [utf8Decode]
        rw [if_neg (by omega), if_pos (by omega)]
        congr 1
        omega
      | x1 :: x2 :: r =>
        simp only [utf8Decode]
        rw [if_neg (by omega), if_pos (by omega)]
        congr 1
        omega
    · rw [if_neg h2]
      by_cases h3 : c < 0x10000
      · rw [if_pos h3]
        show utf8Decode ((0xE0 + c / 4096) :: (0x80 + c / 64 % 64) :: (0x80 + c % 64) :: rest)
            = c :: utf8Decode rest
        match rest with
        | [] =>
          simp only [utf8Decode]
          rw [if_neg (by omega), if_neg (by omega), if_pos (by omega)]
          congr 1
          omega
        | x1 :: r =>
          simp only [utf8Decode]
          rw [if_neg (by omega), if_neg (by omega), if_pos (by omega)]
          congr 1
          omega
      · rw [if_neg h3]
        show utf8Decode ((0xF0 + c / 262144) :: (0x80 + c / 4096 % 64) ::
            (0x80 + c / 64 % 64) :: (0x80 + c % 64) :: rest) = c :: utf8Decode rest
        simp only [utf8Decode]
        rw [if_neg (by omega), if_neg (by omega), if_neg (by omega)]
        congr 1
        omega

theorem utf8_roundtrip (s : JsStr) (h : ∀ c ∈ s, isScalar c) :
    utf8Decode (utf8Encode s) = s := by
  induction s with
  | nil => rfl
  | cons c rest ih =>
    have hc : c < 0x110000 := by
      have := h c (by simp)
      unfold isScalar at this
      rcases this with h1 | h1 <;> omega
    show utf8Decode (utf8EncodeChar c ++ utf8Encode rest) = c :: rest
    rw [utf8DecodeChar_cons c _ hc, ih (fun x hx => h x (by simp [hx]))]

/-! ## Registry lemmas: `currentKey`, `findKey`, `normalizeKeys`, `keyring` -/

theorem jsStrictEq_some {a : Option Int} {n : Int} :
    jsStrictEq a (some n) = true ↔ a = some n := by
  cases a <;> simp [jsStrictEq]

theorem foldl_current_mem (l : List KeyMaterial) (acc : KeyMaterial) :
    l.foldl (fun a b => if jsGT a.id b.id then a else b) acc = acc ∨
    l.foldl (fun a b => if jsGT a.id b.id then a else b) acc ∈ l := by
  induction l generalizing acc with
  | nil => left; rfl
  | cons b l ih =>
    simp only [List.foldl_cons]
    rcases ih (if jsGT acc.id b.id then acc else b) with h | h
    · rw [h]
      split
      · left; rfl
      · right; simp
    · right; simp [h]

theorem currentKey_mem {keys : List KeyMaterial} {km : KeyMaterial}
    (h : currentKey keys = some km) : km ∈ keys := by
  cases keys with
  | nil => simp [currentKey] at h
  | cons k rest =>
    simp only [currentKey, Option.some.injEq] at h
    rcases foldl_current_mem rest k with h2 | h2
    · rw [h2] at h
      simp [← h]
    · rw [← h]
      simp [h2]

theorem foldl_current_eq (l : List KeyMaterial) (km : KeyMaterial) (N : Int)
    (hkm : km.id = some N) :
    ∀ acc : KeyMaterial,
    (∀ x ∈ l, x = km ∨ ∃ m, x.id = some m ∧ m < N) →
    (acc = km ∨ ∃ m, acc.id = some m ∧ m < N) →
    (km = acc ∨ km ∈ l) →
    l.foldl (fun a b => if jsGT a.id b.id then a else b) acc = km := by
  induction l with
  | nil =>
    intro acc _ _ hin
    rcases hin with h | h
    · exact h.symm
    · simp at h
  | cons b l ih =>
    intro acc hsmall hacc hin
    simp only [List.foldl_cons]
    by_cases hb : b = km
    · subst hb
      have hgt : jsGT acc.id b.id = false := by
        rcases hacc with ha | ⟨m, hm, hlt⟩
        · rw [ha, hkm]
          simp [jsGT]
        · rw [hm, hkm]
          simp [jsGT]
          omega
      rw [hgt]
      simp only [Bool.false_eq_true, if_false]
      exact ih b (fun x hx => hsmall x (by simp [hx])) (Or.inl rfl) (Or.inl rfl)
    · have hbs : ∃ m, b.id = some m ∧ m < N := by
        rcases hsmall b (by simp) with h | h
        · exact absurd h hb
        · exact h
      obtain ⟨mb, hmb, hmblt⟩ := hbs
      rcases hacc with ha | ⟨m, hm, hlt⟩
      · subst ha
        have hgt : jsGT acc.id b.id = true := by
          rw [hkm, hmb]
          simp [jsGT]
          omega
        rw [hgt]
        simp only [if_true]
        exact ih acc (fun x hx => hsmall x (by simp [hx])) (Or.inl rfl) (Or.inl rfl)
      · have hin' : km = acc ∨ km ∈ l := by
          rcases hin with h | h
          · exact Or.inl h
          · rcases List.mem_cons.mp h with h2 | h2
            · exact absurd h2.symm hb
            · exact Or.inr h2
        rcases hin' with h | h
        · subst h
          rw [hm] at hkm
          injection hkm with h2
          omega
        · have hacc' : (if jsGT acc.id b.id then acc else b) = km ∨
              ∃ m', (if jsGT acc.id b.id then acc else b).id = some m' ∧ m' < N := by
            split
            · exact Or.inr ⟨m, hm, hlt⟩
            · exact Or.inr ⟨mb, hmb, hmblt⟩
          exact ih _ (fun x hx => hsmall x (by simp [hx])) hacc' (Or.inr h)

theorem currentKey_eq (keys : List KeyMaterial) (km : KeyMaterial) (N : Int)
    (hmem : km ∈ keys) (hkm : km.id = some N)
    (hsmall : ∀ x ∈ keys, x = km ∨ ∃ m, x.id = some m ∧ m < N) :
    currentKey keys = some km := by
  cases keys with
  | nil => simp at hmem
  | cons k rest =>
    simp only [currentKey, Option.some.injEq]
    apply foldl_current_eq rest km N hkm k
      (fun x hx => hsmall x (by simp [hx]))
      (hsmall k (by simp))
    rcases List.mem_cons.mp hmem with h | h
    · exact Or.inl h
    · exact Or.inr h

theorem find?_unique {α : Type} (p : α → Bool) (l : List α) (x : α) (hx : x ∈ l)
    (hpx : p x = true) (huniq : ∀ y ∈ l, p y = true → y = x) :
    l.find? p = some x := by
  induction l with
  | nil => simp at hx
  | cons a l ih =>
    rw [List.find?_cons]
    cases hpa : p a with
    | true =>
      have : a = x := huniq a (by simp) hpa
      simp [this]
    | false =>
      have hxl : x ∈ l := by
        rcases List.mem_cons.mp hx with h | h
        · subst h
          rw [hpx] at hpa
          cases hpa
        · exact h
      exact ih hxl (fun y hy hp => huniq y (by simp [hy]) hp)

theorem findKey_eq (keys : List KeyMaterial) (km : KeyMaterial) (N : Int)
    (hmem : km ∈ keys) (hkm : km.id = some N)
    (huniq : ∀ y ∈ keys, y.id = some N → y = km) :
    findKey keys (.num (some N)) = .ok km := by
  unfold findKey
  rw [find?_unique _ keys km hmem
    (by simp [jsParseIntOfVal, jsStrictEq_some, hkm])
    (fun y hy hp => huniq y hy (by simpa [jsParseIntOfVal, jsStrictEq_some] using hp))]
  rfl

theorem normalizeStep_error (keySize : Nat) (e : KeyringError)
    (l : List (String × SecretInput)) :
    l.foldl (normalizeStep keySize) (.error e) = .error e := by
  induction l with
  | nil => rfl
  | cons p rest ih => simpa [normalizeStep, Bind.bind, Except.bind] using ih

theorem normalizeStep_ok (keySize : Nat) (buffer : List KeyMaterial)
    (p : String × SecretInput) (hp : (keyBuffer p.2).length = keySize * 2) :
    normalizeStep keySize (.ok buffer) p = .ok (buffer ++ [normOne keySize p]) := by
  simp [normalizeStep, Bind.bind, Except.bind, hp, normOne, pure, Except.pure]

theorem normalizeKeys_fold (keySize : Nat) (keysIn : List (String × SecretInput)) :
    ∀ buffer : List KeyMaterial,
    (∀ p ∈ keysIn, (keyBuffer p.2).length = keySize * 2) →
    keysIn.foldl (normalizeStep keySize) (.ok buffer)
      = .ok (buffer ++ keysIn.map (normOne keySize)) := by
  induction keysIn with
  | nil => intro buffer _; simp
  | cons p rest ih =>
    intro buffer h
    simp only [List.foldl_cons]
    rw [normalizeStep_ok keySize buffer p (h p (by simp))]
    rw [ih _ (fun q hq => h q (by simp [hq]))]
    simp

theorem normalizeKeys_ok_of_lengths (keySize : Nat) (keysIn : List (String × SecretInput))
    (h : ∀ p ∈ keysIn, (keyBuffer p.2).length = keySize * 2) :
    normalizeKeys keysIn keySize = .ok (keysIn.map (normOne keySize)) := by
  unfold normalizeKeys
  rw [show (pure [] : Except KeyringError (List KeyMaterial)) = .ok [] from rfl]
  rw [normalizeKeys_fold keySize keysIn [] h]
  simp

theorem normalizeKeys_ok_inv (keySize : Nat) (keysIn : List (String × SecretInput)) :
    ∀ (l buffer : List KeyMaterial),
    keysIn.foldl (normalizeStep keySize) (.ok buffer) = .ok l →
    l = buffer ++ keysIn.map (normOne keySize) := by
  induction keysIn with
  | nil => intro l buffer h; simpa using h.symm
  | cons p rest ih =>
    intro l buffer h
    simp only [List.foldl_cons] at h
    by_cases hp : (keyBuffer p.2).length = keySize * 2
    · rw [normalizeStep_ok keySize buffer p hp] at h
      rw [ih l _ h]
      simp
    · have hstep : normalizeStep keySize (.ok buffer) p
          = .error (.keyLengthMismatch (keySize * 2) (keyBuffer p.2).length) := by
        simp [normalizeStep, Bind.bind, Except.bind, hp, throw, throwThe, MonadExceptOf.throw]
      rw [hstep, normalizeStep_error] at h
      cases h

theorem normalizeKeys_ids (keySize : Nat) (keysIn : List (String × SecretInput))
    (l : List KeyMaterial) (h : normalizeKeys keysIn keySize = .ok l) :
    l.map (fun k => k.id) = keysIn.map (fun p => jsParseInt p.1) := by
  have := normalizeKeys_ok_inv keySize keysIn l [] h
  subst this
  simp only [List.nil_append, List.map_map]
  apply List.map_congr_left
  intro p _
  rfl

theorem keyring_ok {keysIn : List (String × SecretInput)} {opts : OptionsIn}
    {kr : KeyringObj} (hok : keyring keysIn opts = .ok kr) :
    opts.salt = some kr.salt ∧
    kr.encryption = opts.encryption.getD "aes-128-cbc" ∧
    ∃ keySize, keySizes kr.encryption = some keySize ∧
      normalizeKeys keysIn keySize = .ok kr.keys ∧
      kr.keys ≠ [] ∧ (∀ k ∈ kr.keys, k.id ≠ none) := by
  unfold keyring at hok
  split at hok
  · cases hok
  rename_i salt hsalt
  split at hok
  · cases hok
  rename_i sz hks
  cases hn : normalizeKeys keysIn sz with
  | error e =>
    rw [hn] at hok
    simp only [Bind.bind, Except.bind] at hok
    cases hok
  | ok ks =>
    rw [hn] at hok
    simp only [Bind.bind, Except.bind] at hok
    unfold validateKeyring at hok
    by_cases h0 : ks.length = 0
    · rw [if_pos h0] at hok
      cases hok
    · rw [if_neg h0] at hok
      by_cases h1 : ks.any (fun k => decide (k.id = none)) = true
      · rw [if_pos h1] at hok
        cases hok
      · rw [if_neg h1] at hok
        simp only [pure, Except.pure, Except.ok.injEq] at hok
        subst hok
        refine ⟨hsalt, rfl, sz, hks, hn, ?_, ?_⟩
        · intro hnil
          exact h0 (List.length_eq_zero.mpr hnil)
        · intro k hk hid
          apply h1
          rw [List.any_eq_true]
          exact ⟨k, hk, by simp [hid]⟩

/-! ## Envelope assembly and disassembly -/

theorem encrypt_eq (C : CipherPrim) (keys : List KeyMaterial) (enc : String)
    (salt : JsStr) (iv : List Nat) (msg : JsStr) (km : KeyMaterial)
    (hck : currentKey keys = some km) :
    encrypt C keys enc salt iv msg =
      some (base64Encode (hmacSha256 km.signingKey
              (iv ++ C.cipherF enc km.encryptionKey iv (utf8Encode msg))
            ++ iv ++ C.cipherF enc km.encryptionKey iv (utf8Encode msg)),
            km.id,
            hexString (sha1Bytes (utf8Encode (msg ++ salt)))) := by
  unfold encrypt
  rw [hck]

theorem envelope_decode (tag iv ct : List Nat)
    (htag : ∀ b ∈ tag, b < 256) (hivb : ∀ b ∈ iv, b < 256) (hctb : ∀ b ∈ ct, b < 256)
    (hlen : tag.length = 32) (hivlen : iv.length = 16) :
    base64Decode (base64Encode (tag ++ iv ++ ct)) = tag ++ iv ++ ct ∧
    (tag ++ iv ++ ct).take 32 = tag ∧
    ((tag ++ iv ++ ct).drop 32).take 16 = iv ∧
    (tag ++ iv ++ ct).drop 48 = ct := by
  refine ⟨base64_roundtrip _ ?_, ?_, ?_, ?_⟩
  · intro b hb
    rcases List.mem_append.mp hb with h | h
    · rcases List.mem_append.mp h with h2 | h2
      · exact htag b h2
      · exact hivb b h2
    · exact hctb b h
  · rw [List.append_assoc]
    exact List.take_left' hlen
  · rw [List.append_assoc, List.drop_left' hlen]
    exact List.take_left' hivlen
  · exact List.drop_left' (by rw [List.length_append, hlen, hivlen])

theorem decrypt_def (C : CipherPrim) (key : KeyMaterial) (enc message : String) :
    decrypt C key enc message =
      match C.decipherF enc key.encryptionKey
          (((base64Decode message).drop 32).take 16)
          ((base64Decode message).drop 48) with
      | none => (throw .decryptionError, [.decipherRun])
      | some decrypted =>
        if verifySignature
            (hmacSha256 key.signingKey
              ((((base64Decode message).drop 32).take 16) ++ (base64Decode message).drop 48))
            ((base64Decode message).take 32) then
          (pure (utf8Decode decrypted), [.decipherRun, .verifyRun])
        else
          (throw .integrityError, [.decipherRun, .verifyRun]) := rfl

theorem decrypt_split (C : CipherPrim) (key : KeyMaterial) (enc : String)
    (tag iv ct : List Nat)
    (htag : ∀ b ∈ tag, b < 256) (hivb : ∀ b ∈ iv, b < 256) (hctb : ∀ b ∈ ct, b < 256)
    (hlen : tag.length = 32) (hivlen : iv.length = 16) :
    decrypt C key enc (base64Encode (tag ++ iv ++ ct)) =
      match C.decipherF enc key.encryptionKey iv ct with
      | none => (throw .decryptionError, [.decipherRun])
      | some decrypted =>
        if verifySignature (hmacSha256 key.signingKey (iv ++ ct)) tag then
          (pure (utf8Decode decrypted), [.decipherRun, .verifyRun])
        else
          (throw .integrityError, [.decipherRun, .verifyRun]) := by
  have hd := envelope_decode tag iv ct htag hivb hctb hlen hivlen
  rw [decrypt_def, hd.1, hd.2.1, hd.2.2.1, hd.2.2.2]

theorem decrypt_verified (C : CipherPrim) (key : KeyMaterial) (enc : String)
    (iv ct pt : List Nat)
    (hivb : ∀ b ∈ iv, b < 256) (hctb : ∀ b ∈ ct, b < 256) (hivlen : iv.length = 16)
    (hdec : C.decipherF enc key.encryptionKey iv ct = some pt) :
    decrypt C key enc (base64Encode (hmacSha256 key.signingKey (iv ++ ct) ++ iv ++ ct))
      = (.ok (utf8Decode pt), [.decipherRun, .verifyRun]) := by
  have hsplit := envelope_decode (hmacSha256 key.signingKey (iv ++ ct)) iv ct
    (hmacSha256_lt _ _) hivb hctb (hmacSha256_length _ _) hivlen
  rw [decrypt_def, hsplit.1, hsplit.2.1, hsplit.2.2.1, hsplit.2.2.2, hdec,
    verifySignature_self]
  rfl

/-! ## Single-bit tampering -/

theorem flipBit_length (bs : List Nat) (i k : Nat) :
    (flipBit bs i k).length = bs.length :=
  List.length_set bs i _

theorem flipBit_append_left {l1 l2 : List Nat} {i k : Nat} (h : i < l1.length) :
    flipBit (l1 ++ l2) i k = flipBit l1 i k ++ l2 := by
  unfold flipBit
  rw [List.getD_append _ _ _ _ h, List.set_append, if_pos h]

theorem flipBit_append_right {l1 l2 : List Nat} {i k : Nat} (h : l1.length ≤ i) :
    flipBit (l1 ++ l2) i k = l1 ++ flipBit l2 (i - l1.length) k := by
  unfold flipBit
  rw [List.getD_append_right _ _ _ _ h, List.set_append, if_neg (by omega)]

theorem flipBit_ne {bs : List Nat} {i k : Nat} (h : i < bs.length) : flipBit bs i k ≠ bs := by
  intro heq
  have h2 : (flipBit bs i k)[i]? = bs[i]? := by rw [heq]
  rw [flipBit, List.getElem?_set_self h, List.getElem?_eq_getElem h] at h2
  have h3 : bs.getD i 0 = bs[i] := by
    rw [List.getD_eq_getElem?_getD, List.getElem?_eq_getElem h]
    rfl
  rw [h3] at h2
  exact flip_ne (Option.some.inj h2)

theorem flipBit_lt {bs : List Nat} {i k : Nat} (hbs : ∀ b ∈ bs, b < 256) (hk : k < 8) :
    ∀ b ∈ flipBit bs i k, b < 256 := by
  intro b hb
  rcases List.mem_or_eq_of_mem_set hb with h | h
  · exact hbs b h
  · subst h
    apply xor_byte_lt
    · rw [List.getD_eq_getElem?_getD]
      cases hg : bs[i]? with
      | none => simp
      | some c =>
        have := List.getElem?_mem hg
        simpa using hbs c this
    · rw [Nat.one_shiftLeft]
      calc 2 ^ k ≤ 2 ^ 7 := Nat.pow_le_pow_right (by omega) (by omega)
        _ < 256 := by omega

theorem currentKey_of_ne_nil {keys : List KeyMaterial} (h : keys ≠ []) :
    ∃ km, currentKey keys = some km := by
  cases keys with
  | nil => exact absurd rfl h
  | cons a l => exact ⟨_, rfl⟩

theorem pairwise_unique_id {keys : List KeyMaterial} {km y : KeyMaterial} {N : Int}
    (huniq : keys.Pairwise (fun a b => a.id ≠ b.id))
    (hmem : km ∈ keys) (hkm : km.id = some N)
    (hy : y ∈ keys) (hyid : y.id = some N) : y = km := by
  by_contra hne
  have := List.Pairwise.forall (fun a b h => (h ∘ Eq.symm : b.id ≠ a.id))
    huniq hy hmem hne
  rw [hkm, hyid] at this
  exact this rfl

theorem krDecrypt_found {C : CipherPrim} {kr : KeyringObj} {message : String}
    {kid : JsVal} {key : KeyMaterial} (hfind : findKey kr.keys kid = .ok key) :
    krDecrypt C kr message kid = decrypt C key kr.encryption message := by
  unfold krDecrypt
  rw [hfind]

/-! # The claims -/

/-- **C1** — Round-trip: for every supported algorithm (the keyring
constructor succeeded, so the configured algorithm is one of the three
AES-CBC variants), every valid key map (accepted by the constructor, with
pairwise-distinct ids as the specification's validity demands), and every
string plaintext `p` of Unicode scalar values, decrypting — with the same
keyring and the keyId returned by `encrypt(p)` — the envelope returned by
`encrypt(p)` yields `p` again.  The external AES-CBC primitive is any
cipher whose deciphering inverts its enciphering on this input and which
produces bytes; the IV is any 16-byte value of `crypto.randomBytes(16)`. -/
theorem C1_roundtrip (C : CipherPrim) (keysIn : List (String × SecretInput))
    (opts : OptionsIn) (kr : KeyringObj) (iv : List Nat) (p : JsStr)
    (env : String) (kid : Option Int) (dg : String)
    (hok : keyring keysIn opts = .ok kr)
    (huniq : kr.keys.Pairwise (fun a b => a.id ≠ b.id))
    (henc : krEncrypt C kr iv p = some (env, kid, dg))
    (hinv : ∀ km ∈ kr.keys, C.decipherF kr.encryption km.encryptionKey iv
        (C.cipherF kr.encryption km.encryptionKey iv (utf8Encode p))
        = some (utf8Encode p))
    (hctb : ∀ km ∈ kr.keys,
        ∀ b ∈ C.cipherF kr.encryption km.encryptionKey iv (utf8Encode p), b < 256)
    (hiv : iv.length = 16) (hivb : ∀ b ∈ iv, b < 256)
    (hp : ∀ c ∈ p, isScalar c) :
    (krDecrypt C kr env (.num kid)).1 = .ok p := by
  obtain ⟨hsalt, halg, sz, hks, hn, hne, hnonan⟩ := keyring_ok hok
  obtain ⟨km, hck⟩ := currentKey_of_ne_nil hne
  have hmem : km ∈ kr.keys := currentKey_mem hck
  obtain ⟨N, hkmid⟩ : ∃ N, km.id = some N := by
    cases h : km.id with
    | none => exact absurd h (hnonan km hmem)
    | some n => exact ⟨n, rfl⟩
  rw [krEncrypt, encrypt_eq C kr.keys kr.encryption kr.salt iv p km hck] at henc
  simp only [Option.some.injEq, Prod.mk.injEq] at henc
  obtain ⟨henv, hkid, hdg⟩ := henc
  rw [← hkid, hkmid]
  rw [krDecrypt_found (findKey_eq kr.keys km N hmem hkmid
    (fun y hy hyid => pairwise_unique_id huniq hmem hkmid hy hyid))]
  rw [← henv]
  rw [decrypt_verified C km kr.encryption iv _ (utf8Encode p) hivb
    (hctb km hmem) hiv (hinv km hmem)]
  rw [utf8_roundtrip p hp]

/-- **C1 witness**: the concrete one-key keyring over `wSecretBytes` with
the toy cipher round-trips the string `"42"`. -/
theorem C1_roundtrip_witness :
    keyring [("0", SecretInput.buf wSecretBytes)] wOpts = .ok wKr ∧
    krEncrypt toyCipher wKr wIv (strCp "42") = some (wEnv, some 0, wDg) ∧
    (krDecrypt toyCipher wKr wEnv (.num (some 0))).1 = .ok (strCp "42") :=
  ⟨by decide, by decide,
    C1_roundtrip toyCipher [("0", SecretInput.buf wSecretBytes)] wOpts wKr wIv
      (strCp "42") wEnv (some 0) wDg (by decide) (by unfold wKr; simp) (by decide)
      (by decide) (by decide) (by decide) (by decide) (by decide)⟩

/-- **C5** — Envelope wire format: the envelope returned by `encrypt` is the
base64 encoding of `tag ‖ iv ‖ ciphertext`, where `tag` is the 32-byte
HMAC-SHA256 over `iv ‖ ciphertext` under the current key's signing key and
`iv` is the 16-byte IV; splitting the decoded envelope at the offsets
`decrypt` uses — `[0:32)`, `[32:48)`, `[48:)` — recovers exactly the tag,
the IV, and the ciphertext. -/
theorem C5_wire_format (C : CipherPrim) (keysIn : List (String × SecretInput))
    (opts : OptionsIn) (kr : KeyringObj) (km : KeyMaterial) (iv : List Nat) (p : JsStr)
    (env : String) (kid : Option Int) (dg : String)
    (hok : keyring keysIn opts = .ok kr)
    (hck : currentKey kr.keys = some km)
    (henc : krEncrypt C kr iv p = some (env, kid, dg))
    (hctb : ∀ b ∈ C.cipherF kr.encryption km.encryptionKey iv (utf8Encode p), b < 256)
    (hiv : iv.length = 16) (hivb : ∀ b ∈ iv, b < 256) :
    env = base64Encode (hmacSha256 km.signingKey
        (iv ++ C.cipherF kr.encryption km.encryptionKey iv (utf8Encode p))
      ++ iv ++ C.cipherF kr.encryption km.encryptionKey iv (utf8Encode p)) ∧
    (hmacSha256 km.signingKey
        (iv ++ C.cipherF kr.encryption km.encryptionKey iv (utf8Encode p))).length = 32 ∧
    (base64Decode env).take 32 = hmacSha256 km.signingKey
        (iv ++ C.cipherF kr.encryption km.encryptionKey iv (utf8Encode p)) ∧
    ((base64Decode env).drop 32).take 16 = iv ∧
    (base64Decode env).drop 48 = C.cipherF kr.encryption km.encryptionKey iv (utf8Encode p) := by
  rw [krEncrypt, encrypt_eq C kr.keys kr.encryption kr.salt iv p km hck] at henc
  simp only [Option.some.injEq, Prod.mk.injEq] at henc
  obtain ⟨henv, hkid, hdg⟩ := henc
  have hd := envelope_decode
    (hmacSha256 km.signingKey (iv ++ C.cipherF kr.encryption km.encryptionKey iv (utf8Encode p)))
    iv (C.cipherF kr.encryption km.encryptionKey iv (utf8Encode p))
    (hmacSha256_lt _ _) hivb hctb (hmacSha256_length _ _) hiv
  subst henv
  refine ⟨rfl, hmacSha256_length _ _, ?_, ?_, ?_⟩
  · rw [hd.1]
    exact hd.2.1
  · rw [hd.1]
    exact hd.2.2.1
  · rw [hd.1]
    exact hd.2.2.2

/-- **C5 witness**: on the concrete run of `encrypt("42")` under `wKr`, the
decrypt-side split of the decoded envelope recovers the IV at `[32:48)` and
the ciphertext at `[48:)`. -/
theorem C5_wire_format_witness :
    currentKey wKr.keys = some wKey0 ∧
    ((base64Decode wEnv).drop 32).take 16 = wIv ∧
    (base64Decode wEnv).drop 48
      = toyCipher.cipherF wKr.encryption wKey0.encryptionKey wIv (utf8Encode (strCp "42")) :=
  ⟨by decide,
    (C5_wire_format toyCipher [("0", SecretInput.buf wSecretBytes)] wOpts wKr wKey0 wIv
      (strCp "42") wEnv (some 0) wDg (by decide) (by decide) (by decide)
      (by decide) (by decide) (by decide)).2.2.2.1,
    (C5_wire_format toyCipher [("0", SecretInput.buf wSecretBytes)] wOpts wKr wKey0 wIv
      (strCp "42") wEnv (some 0) wDg (by decide) (by decide) (by decide)
      (by decide) (by decide) (by decide)).2.2.2.2⟩

/-- **C6** — Digest: the facade's `digest(p)` is the SHA-1 of the direct
concatenation `p ‖ salt`, rendered as a 40-character lowercase hex string,
and depends on nothing but the plaintext and the salt (never on the keys or
the cipher algorithm); with salt `"a"`, `digest("42")` is the concrete
vector `118c884d37dde5fb6816daba052d94e82f1dc41f`. -/
theorem C6_digest_sha1 :
    (∀ kr1 kr2 : KeyringObj, ∀ p : JsStr, kr1.salt = kr2.salt →
      krDigest kr1 p = krDigest kr2 p) ∧
    (∀ (kr : KeyringObj) (p : JsStr),
      krDigest kr p = hexString (sha1Bytes (utf8Encode (p ++ kr.salt)))) ∧
    (∀ (kr : KeyringObj) (p : JsStr), (krDigest kr p).length = 40) ∧
    (∀ (kr : KeyringObj) (p : JsStr), ∀ c ∈ (krDigest kr p).data,
      c ∈ "0123456789abcdef".data) ∧
    (∀ kr : KeyringObj, kr.salt = strCp "a" →
      krDigest kr (strCp "42") = "118c884d37dde5fb6816daba052d94e82f1dc41f") := by
  refine ⟨?_, ?_, ?_, ?_, ?_⟩
  · intro kr1 kr2 p h
    unfold krDigest
    rw [h]
  · intro kr p
    rfl
  · intro kr p
    show (hexChars (sha1Bytes (utf8Encode (p ++ kr.salt)))).length = 40
    rw [hexChars_length, sha1Bytes_length]
  · intro kr p
    exact hexChars_mem _
  · intro kr h
    unfold krDigest
    rw [h]
    decide

/-- **C6 witness**: the concrete keyring with salt `"a"` produces the
spec's digest vector for `"42"`, and its digests are 40 characters long. -/
theorem C6_digest_sha1_witness :
    wKrA.salt = strCp "a" ∧
    (krDigest wKrA (strCp "42")).length = 40 ∧
    krDigest wKrA (strCp "42") = "118c884d37dde5fb6816daba052d94e82f1dc41f" :=
  ⟨by decide, C6_digest_sha1.2.2.1 wKrA (strCp "42"),
    C6_digest_sha1.2.2.2.2 wKrA (by decide)⟩

/-- **C10** — Encrypt/digest consistency: the third component of the triple
returned by `encrypt(p)` is exactly the facade's `digest(p)` — the SHA-1
hex of `p ‖ salt` — and it is identical across encrypting runs with any
cipher primitive and any IV, so it never depends on the key, IV, or
ciphertext. -/
theorem C10_encrypt_digest (C C' : CipherPrim) (kr : KeyringObj) (iv iv' : List Nat)
    (p : JsStr) (t : String × Option Int × String)
    (henc : krEncrypt C kr iv p = some t) :
    t.2.2 = krDigest kr p ∧
    (∀ t', krEncrypt C' kr iv' p = some t' → t'.2.2 = t.2.2) := by
  cases hck : currentKey kr.keys with
  | none =>
    rw [krEncrypt] at henc
    unfold encrypt at henc
    rw [hck] at henc
    cases henc
  | some km =>
    rw [krEncrypt, encrypt_eq C kr.keys kr.encryption kr.salt iv p km hck] at henc
    have ht := Option.some.inj henc
    subst ht
    constructor
    · rfl
    · intro t' henc'
      rw [krEncrypt, encrypt_eq C' kr.keys kr.encryption kr.salt iv' p km hck] at henc'
      have ht' := Option.some.inj henc'
      subst ht'
      rfl

/-- **C4** — Current key and rotation: `currentId()` (and the key id
`encrypt` reports) is the maximum id `N` of the registry; constructing a
new keyring from the same map expanded with a key whose id parses to `N+1`
makes every subsequent `encrypt` report `keyId = N+1`, while decrypting an
envelope produced under id `N` with the expanded keyring still succeeds and
returns the original plaintext. -/
theorem C4_current_rotation (C : CipherPrim)
    (keysIn : List (String × SecretInput)) (addKey : String × SecretInput)
    (opts : OptionsIn) (kr kr' : KeyringObj) (km : KeyMaterial) (N : Int)
    (iv : List Nat) (p : JsStr) (env : String) (kid : Option Int) (dg : String)
    (hok : keyring keysIn opts = .ok kr)
    (hok' : keyring (keysIn ++ [addKey]) opts = .ok kr')
    (hmem : km ∈ kr.keys) (hkm : km.id = some N)
    (hmax : ∀ x ∈ kr.keys, x = km ∨ ∃ m, x.id = some m ∧ m < N)
    (hnew : jsParseInt addKey.1 = some (N + 1))
    (henc : krEncrypt C kr iv p = some (env, kid, dg))
    (hinv : C.decipherF kr.encryption km.encryptionKey iv
        (C.cipherF kr.encryption km.encryptionKey iv (utf8Encode p)) = some (utf8Encode p))
    (hctb : ∀ b ∈ C.cipherF kr.encryption km.encryptionKey iv (utf8Encode p), b < 256)
    (hiv : iv.length = 16) (hivb : ∀ b ∈ iv, b < 256)
    (hp : ∀ c ∈ p, isScalar c) :
    krCurrentId kr = some N ∧ kid = some N ∧
    (∀ iv' p' t', krEncrypt C kr' iv' p' = some t' → t'.2.1 = some (N + 1)) ∧
    krCurrentId kr' = some (N + 1) ∧
    (krDecrypt C kr' env (.num kid)).1 = .ok p := by
  obtain ⟨hsalt, halg, sz, hks, hn, hne, hnonan⟩ := keyring_ok hok
  obtain ⟨hsalt', halg', sz', hks', hn', hne', hnonan'⟩ := keyring_ok hok'
  have halg_eq : kr'.encryption = kr.encryption := by rw [halg, halg']
  have hsz : sz' = sz := by
    rw [halg_eq, hks] at hks'
    exact (Option.some.inj hks').symm
  rw [hsz] at hn'
  have hck : currentKey kr.keys = some km := currentKey_eq kr.keys km N hmem hkm hmax
  have happ : normalizeKeys (keysIn ++ [addKey]) sz
      = List.foldl (normalizeStep sz) (.ok kr.keys) [addKey] := by
    unfold normalizeKeys
    rw [List.foldl_append]
    congr 1
  have hkeys' : kr'.keys = kr.keys ++ [normOne sz addKey] := by
    by_cases hlen : (keyBuffer addKey.2).length = sz * 2
    · rw [happ] at hn'
      simp only [List.foldl_cons, List.foldl_nil] at hn'
      rw [normalizeStep_ok sz kr.keys addKey hlen] at hn'
      exact (Except.ok.inj hn').symm
    · exfalso
      rw [happ] at hn'
      simp only [List.foldl_cons, List.foldl_nil] at hn'
      rw [show normalizeStep sz (.ok kr.keys) addKey
          = .error (.keyLengthMismatch (sz * 2) (keyBuffer addKey.2).length) from by
        simp [normalizeStep, Bind.bind, Except.bind, hlen, throw, throwThe,
          MonadExceptOf.throw]] at hn'
      cases hn'
  have hnkid : (normOne sz addKey).id = some (N + 1) := by
    simp [normOne, hnew]
  have hck' : currentKey kr'.keys = some (normOne sz addKey) := by
    apply currentKey_eq _ _ (N + 1)
      (by rw [hkeys']; exact List.mem_append_right _ (by simp)) hnkid
    intro x hx
    rw [hkeys'] at hx
    rcases List.mem_append.mp hx with hx | hx
    · rcases hmax x hx with h | ⟨m, hm, hlt⟩
      · subst h
        exact Or.inr ⟨N, hkm, by omega⟩
      · exact Or.inr ⟨m, hm, by omega⟩
    · simp only [List.mem_singleton] at hx
      exact Or.inl hx
  rw [krEncrypt, encrypt_eq C kr.keys kr.encryption kr.salt iv p km hck] at henc
  simp only [Option.some.injEq, Prod.mk.injEq] at henc
  obtain ⟨henv, hkid, hdg⟩ := henc
  have hfind : findKey kr'.keys (.num (some N)) = .ok km := by
    apply findKey_eq _ km N (by rw [hkeys']; exact List.mem_append_left _ hmem) hkm
    intro y hy hyid
    rw [hkeys'] at hy
    rcases List.mem_append.mp hy with hy | hy
    · rcases hmax y hy with h | ⟨m, hm, hlt⟩
      · exact h
      · rw [hm] at hyid
        have := Option.some.inj hyid
        omega
    · simp only [List.mem_singleton] at hy
      subst hy
      rw [hnkid] at hyid
      have := Option.some.inj hyid
      omega
  refine ⟨?_, ?_, ?_, ?_, ?_⟩
  · unfold krCurrentId
    rw [hck]
    exact hkm
  · rw [← hkid]
    exact hkm
  · intro iv' p' t' henc'
    rw [krEncrypt, encrypt_eq C kr'.keys kr'.encryption kr'.salt iv' p'
      (normOne sz addKey) hck'] at henc'
    have ht' := Option.some.inj henc'
    subst ht'
    exact hnkid
  · unfold krCurrentId
    rw [hck']
    exact hnkid
  · rw [← hkid, hkm, krDecrypt_found hfind, ← henv, halg_eq,
      decrypt_verified C km kr.encryption iv _ (utf8Encode p) hivb hctb hiv hinv]
    rw [utf8_roundtrip p hp]

/-- **C4 witness**: rotating the concrete one-key keyring (max id 0) by
adding a key with id `"1"` makes the expanded keyring report current id 1
while still decrypting the envelope produced under id 0. -/
theorem C4_current_rotation_witness :
    keyring [("0", SecretInput.buf wSecretBytes), ("1", SecretInput.buf wSecretBytes2)]
      wOpts = .ok wKr2 ∧
    krCurrentId wKr2 = some 1 ∧
    (krDecrypt toyCipher wKr2 wEnv (.num (some 0))).1 = .ok (strCp "42") := by
  have h := C4_current_rotation toyCipher [("0", SecretInput.buf wSecretBytes)]
    ("1", SecretInput.buf wSecretBytes2) wOpts wKr wKr2 wKey0 0 wIv (strCp "42")
    wEnv (some 0) wDg (by decide) (by decide) (by decide) (by decide)
    (fun x hx => Or.inl (List.mem_singleton.mp hx)) (by decide) (by decide)
    (by decide) (by decide) (by decide) (by decide) (by decide)
  exact ⟨by decide, h.2.2.2.1, h.2.2.2.2⟩

/-- **C10 witness**: on the concrete run, the third component of
`encrypt("42")` equals `digest("42")`. -/
theorem C10_encrypt_digest_witness :
    krEncrypt toyCipher wKr wIv (strCp "42") = some (wEnv, some 0, wDg) ∧
    wDg = krDigest wKr (strCp "42") :=
  ⟨by decide,
    (C10_encrypt_digest toyCipher toyCipher wKr wIv wIv (strCp "42")
      (wEnv, some 0, wDg) (by decide)).1⟩

/-- **C3 counterexample** — on a concrete envelope whose HMAC region is
wrong but whose ciphertext deciphers, `decrypt` does fail with the
integrity error, yet the block decipher has already run: the event trace is
`[decipherRun, verifyRun]`, with the decipher first — refuting "HMAC
verification happens before any ciphertext bytes are decrypted" and
"fails with IntegrityError without running the block-cipher decryption". -/
theorem C3_counterexample :
    decrypt toyCipher wKey0 "aes-128-cbc" c3msg
      = (.error .integrityError, [.decipherRun, .verifyRun]) ∧
    DecEvent.decipherRun ∈ (decrypt toyCipher wKey0 "aes-128-cbc" c3msg).2 ∧
    (decrypt toyCipher wKey0 "aes-128-cbc" c3msg).2.head? = some .decipherRun := by
  have h : decrypt toyCipher wKey0 "aes-128-cbc" c3msg
      = (.error .integrityError, [.decipherRun, .verifyRun]) := by decide
  refine ⟨h, ?_, ?_⟩
  · rw [h]
    decide
  · rw [h]
    rfl

/-- **C3 (amended)** — Decrypt-then-verify, but still fail-closed: on every
`decrypt` call the block decipher runs first (the trace begins with
`decipherRun`; verification, when reached, comes after); if deciphering
fails the call ends with `DecryptionError`; if deciphering succeeds and the
recomputed HMAC does not verify against the stored tag, `decrypt` fails
with `IntegrityError` — the block decryption having already been performed
— and no plaintext is ever returned from an input whose HMAC does not
verify. -/
theorem C3_decipher_before_verify (C : CipherPrim) (key : KeyMaterial)
    (enc message : String) :
    (decrypt C key enc message).2.head? = some .decipherRun ∧
    (C.decipherF enc key.encryptionKey (((base64Decode message).drop 32).take 16)
        ((base64Decode message).drop 48) = none →
      decrypt C key enc message = (.error .decryptionError, [.decipherRun])) ∧
    (∀ pt, C.decipherF enc key.encryptionKey (((base64Decode message).drop 32).take 16)
        ((base64Decode message).drop 48) = some pt →
      (decrypt C key enc message).2 = [.decipherRun, .verifyRun] ∧
      (verifySignature
          (hmacSha256 key.signingKey ((((base64Decode message).drop 32).take 16)
            ++ (base64Decode message).drop 48))
          ((base64Decode message).take 32) = false →
        (decrypt C key enc message).1 = .error .integrityError)) ∧
    (verifySignature
        (hmacSha256 key.signingKey ((((base64Decode message).drop 32).take 16)
          ++ (base64Decode message).drop 48))
        ((base64Decode message).take 32) = false →
      ∀ pt, (decrypt C key enc message).1 ≠ .ok pt) := by
  rw [decrypt_def]
  cases hdec : C.decipherF enc key.encryptionKey (((base64Decode message).drop 32).take 16)
      ((base64Decode message).drop 48) with
  | none =>
    refine ⟨rfl, fun _ => rfl, ?_, ?_⟩
    · intro pt h
      cases h
    · intro _ pt h
      cases h
  | some d =>
    by_cases hv : verifySignature
        (hmacSha256 key.signingKey ((((base64Decode message).drop 32).take 16)
          ++ (base64Decode message).drop 48))
        ((base64Decode message).take 32) = true
    · rw [hv]
      refine ⟨rfl, ?_, ?_, ?_⟩
      · intro h
        cases h
      · intro pt h
        refine ⟨rfl, ?_⟩
        intro hfalse
        cases hfalse
      · intro hfalse
        cases hfalse
    · rw [Bool.not_eq_true] at hv
      rw [hv]
      refine ⟨rfl, ?_, ?_, ?_⟩
      · intro h
        cases h
      · intro pt h
        exact ⟨rfl, fun _ => rfl⟩
      · intro _ pt h
        cases h

/-- **C3 witness** — applying the amended theorem to the concrete tampered
envelope: the trace is `[decipherRun, verifyRun]` and the result is the
integrity error. -/
theorem C3_decipher_before_verify_witness :
    (decrypt toyCipher wKey0 "aes-128-cbc" c3msg).2 = [.decipherRun, .verifyRun] ∧
    (decrypt toyCipher wKey0 "aes-128-cbc" c3msg).1 = .error .integrityError :=
  ⟨((C3_decipher_before_verify toyCipher wKey0 "aes-128-cbc" c3msg).2.2.1
      [] (by decide)).1,
   ((C3_decipher_before_verify toyCipher wKey0 "aes-128-cbc" c3msg).2.2.1
      [] (by decide)).2 (by decide)⟩

/-- **C2 counterexample** — flipping bit 0 of decoded byte 50, inside the
ciphertext region `[48:)` of a genuine envelope of `encrypt("42")`, makes
`decrypt` fail with `DecryptionError` (the cipher's padding check fails
before the HMAC is ever compared), not with `IntegrityError` — refuting
"flipping any single bit … in the ciphertext region … causes decrypt …
to fail with IntegrityError". -/
theorem C2_counterexample :
    krEncrypt toyCipher wKr wIv (strCp "42") = some (wEnv, some 0, wDg) ∧
    48 ≤ 50 ∧ 50 < (base64Decode wEnv).length ∧
    (krDecrypt toyCipher wKr (base64Encode (flipBit (base64Decode wEnv) 50 0))
      (.num (some 0))).1 = .error .decryptionError ∧
    KeyringError.decryptionError ≠ KeyringError.integrityError :=
  ⟨by decide, by decide, by decide, by decide, by decide⟩

/-- **C2 (amended)** — Tamper detection: for an envelope produced by
`encrypt`, flipping any single bit of the HMAC region (bytes `[0:32)` of
the decoded envelope) makes `decrypt` fail with `IntegrityError`; flipping
any single bit of the ciphertext region (bytes `[48:)`) whose tampered
ciphertext authenticates differently (its HMAC under the signing key
differs from the stored tag — guaranteed for an ideal MAC but not decidable
for a concrete one) makes `decrypt` fail, with `DecryptionError` when the
tampered ciphertext no longer deciphers and `IntegrityError` otherwise; in
every such case no plaintext is ever returned. -/
theorem C2_tamper_detection (C : CipherPrim) (keysIn : List (String × SecretInput))
    (opts : OptionsIn) (kr : KeyringObj) (km : KeyMaterial) (iv : List Nat) (p : JsStr)
    (env : String) (kid : Option Int) (dg : String) (i k : Nat)
    (hok : keyring keysIn opts = .ok kr)
    (huniq : kr.keys.Pairwise (fun a b => a.id ≠ b.id))
    (hck : currentKey kr.keys = some km)
    (henc : krEncrypt C kr iv p = some (env, kid, dg))
    (hdec : (C.decipherF kr.encryption km.encryptionKey iv
        (C.cipherF kr.encryption km.encryptionKey iv (utf8Encode p))).isSome = true)
    (hctb : ∀ b ∈ C.cipherF kr.encryption km.encryptionKey iv (utf8Encode p), b < 256)
    (hiv : iv.length = 16) (hivb : ∀ b ∈ iv, b < 256)
    (hk : k < 8)
    (hreg : i < 32 ∨ (48 ≤ i ∧ i < (base64Decode env).length))
    (hcoll : 48 ≤ i →
      hmacSha256 km.signingKey
          (iv ++ flipBit (C.cipherF kr.encryption km.encryptionKey iv (utf8Encode p)) (i - 48) k)
        ≠ hmacSha256 km.signingKey
          (iv ++ C.cipherF kr.encryption km.encryptionKey iv (utf8Encode p))) :
    (∀ pt, (krDecrypt C kr (base64Encode (flipBit (base64Decode env) i k))
        (.num kid)).1 ≠ .ok pt) ∧
    (i < 32 →
      (krDecrypt C kr (base64Encode (flipBit (base64Decode env) i k)) (.num kid)).1
        = .error .integrityError) ∧
    (48 ≤ i →
      (krDecrypt C kr (base64Encode (flipBit (base64Decode env) i k)) (.num kid)).1
          = .error .integrityError ∨
      (krDecrypt C kr (base64Encode (flipBit (base64Decode env) i k)) (.num kid)).1
          = .error .decryptionError) := by
  obtain ⟨hsalt, halg, sz, hks, hn, hne, hnonan⟩ := keyring_ok hok
  have hmem : km ∈ kr.keys := currentKey_mem hck
  obtain ⟨N, hkmid⟩ : ∃ N, km.id = some N := by
    cases h : km.id with
    | none => exact absurd h (hnonan km hmem)
    | some n => exact ⟨n, rfl⟩
  rw [krEncrypt, encrypt_eq C kr.keys kr.encryption kr.salt iv p km hck] at henc
  simp only [Option.some.injEq, Prod.mk.injEq] at henc
  obtain ⟨henv, hkid, hdg⟩ := henc
  set ct := C.cipherF kr.encryption km.encryptionKey iv (utf8Encode p) with hct
  set tag := hmacSha256 km.signingKey (iv ++ ct) with htag
  have htag_len : tag.length = 32 := hmacSha256_length _ _
  have htag_lt : ∀ b ∈ tag, b < 256 := hmacSha256_lt _ _
  have hdecoded : base64Decode env = tag ++ iv ++ ct := by
    rw [← henv]
    exact (envelope_decode tag iv ct htag_lt hivb hctb htag_len hiv).1
  have hfind : findKey kr.keys (.num (some N)) = .ok km :=
    findKey_eq kr.keys km N hmem hkmid
      (fun y hy hyid => pairwise_unique_id huniq hmem hkmid hy hyid)
  have hkr : ∀ m : String, krDecrypt C kr m (.num kid) = decrypt C km kr.encryption m := by
    intro m
    rw [← hkid, hkmid]
    exact krDecrypt_found hfind
  have main : i < 32 ∨ 48 ≤ i ∧ i < (base64Decode env).length →
      (krDecrypt C kr (base64Encode (flipBit (base64Decode env) i k)) (.num kid)).1
        = .error .integrityError ∨
      48 ≤ i ∧ (krDecrypt C kr (base64Encode (flipBit (base64Decode env) i k)) (.num kid)).1
        = .error .decryptionError := by
    intro hr
    rw [hkr, hdecoded]
    rcases hr with hr | ⟨hr, hrlen⟩
    · left
      have hflip : flipBit (tag ++ iv ++ ct) i k = flipBit tag i k ++ iv ++ ct := by
        rw [flipBit_append_left (by rw [List.length_append, htag_len, hiv]; omega),
          flipBit_append_left (by rw [htag_len]; omega)]
      rw [hflip]
      rw [decrypt_split C km kr.encryption (flipBit tag i k) iv ct
        (flipBit_lt htag_lt hk) hivb hctb (by rw [flipBit_length, htag_len]) hiv]
      obtain ⟨pt, hpt⟩ := Option.isSome_iff_exists.mp hdec
      rw [hpt]
      have hlt : i < tag.length := by rw [htag_len]; omega
      have hne' : tag ≠ flipBit tag i k := fun h => flipBit_ne hlt h.symm
      rw [verifySignature_ne (by rw [flipBit_length, htag_len]) hne']
      rfl
    · have hlen48 : (tag ++ iv).length = 48 := by rw [List.length_append, htag_len, hiv]
      have hflip : flipBit (tag ++ iv ++ ct) i k = tag ++ iv ++ flipBit ct (i - 48) k := by
        rw [flipBit_append_right (by rw [hlen48]; omega)]
        rw [hlen48]
      rw [hflip]
      rw [decrypt_split C km kr.encryption tag iv (flipBit ct (i - 48) k)
        htag_lt hivb (flipBit_lt hctb hk) htag_len hiv]
      cases hdt : C.decipherF kr.encryption km.encryptionKey iv (flipBit ct (i - 48) k) with
      | none => right; exact ⟨hr, rfl⟩
      | some d =>
        left
        rw [verifySignature_ne (by rw [hmacSha256_length, htag_len]) (hcoll hr)]
        rfl
  refine ⟨?_, ?_, ?_⟩
  · intro pt hok'
    rcases main hreg with h | ⟨_, h⟩ <;> rw [h] at hok' <;> cases hok'
  · intro hi
    rcases main (Or.inl hi) with h | ⟨h48, h⟩
    · exact h
    · omega
  · intro hi
    rcases hreg with hr | hr
    · omega
    · rcases main (Or.inr hr) with h | ⟨_, h⟩
      · exact Or.inl h
      · exact Or.inr h

theorem keyring_normalized (keysIn : List (String × SecretInput)) (opts : OptionsIn)
    (salt : JsStr) (sz : Nat)
    (hsalt : opts.salt = some salt)
    (hks : keySizes (opts.encryption.getD "aes-128-cbc") = some sz)
    (hlen : ∀ p ∈ keysIn, (keyBuffer p.2).length = sz * 2) :
    keyring keysIn opts
      = (do
          validateKeyring (keysIn.map (normOne sz))
          pure { keys := keysIn.map (normOne sz),
                 encryption := opts.encryption.getD "aes-128-cbc", salt := salt }) := by
  unfold keyring
  simp only [hsalt, hks, normalizeKeys_ok_of_lengths sz keysIn hlen]
  simp only [Bind.bind, Except.bind]

/-- **C7 counterexample** — the input id `"1.5"` is not representable as an
integer, yet construction succeeds: `parseInt` keeps the integer prefix, so
there is no `InvalidKeyId` failure, and the constructed keyring contains a
key (id 1) that did not come from an integer-representable input id. -/
theorem C7_counterexample :
    strIsInteger "1.5" = false ∧
    jsParseInt "1.5" = some 1 ∧
    keyring c7Keys wOpts = .ok c7Kr :=
  ⟨by decide, by decide, by decide⟩

/-- **C7 (amended)** — ids are parsed with JS `parseInt` semantics: the
registry ids are exactly `parseInt` of the input ids, and construction
fails with `InvalidKeyId` precisely when some id parses to `NaN` (no
leading integer); an id with an integer prefix followed by junk, such as
`"1.5"`, is accepted as its prefix value, so a constructed keyring's ids
come from `parseInt`, not from integer-representable inputs only. -/
theorem C7_parseint_ids (keysIn : List (String × SecretInput)) (opts : OptionsIn) :
    (∀ kr, keyring keysIn opts = .ok kr →
      kr.keys.map (fun k => k.id) = keysIn.map (fun p => jsParseInt p.1) ∧
      ∀ k ∈ kr.keys, k.id ≠ none) ∧
    (∀ salt sz, opts.salt = some salt →
      keySizes (opts.encryption.getD "aes-128-cbc") = some sz →
      (∀ p ∈ keysIn, (keyBuffer p.2).length = sz * 2) →
      keysIn ≠ [] →
      (∃ p ∈ keysIn, jsParseInt p.1 = none) →
      keyring keysIn opts = .error .invalidKeyId) := by
  constructor
  · intro kr hok
    obtain ⟨_, _, sz, _, hn, _, hnonan⟩ := keyring_ok hok
    exact ⟨normalizeKeys_ids sz keysIn kr.keys hn, hnonan⟩
  · intro salt sz hsalt hks hlen hne hbad
    obtain ⟨p, hp, hpnone⟩ := hbad
    rw [keyring_normalized keysIn opts salt sz hsalt hks hlen]
    unfold validateKeyring
    rw [if_neg (fun h : (keysIn.map (normOne sz)).length = 0 =>
      hne (List.length_eq_zero.mp (by rw [List.length_map] at h; exact h)))]
    rw [if_pos (List.any_eq_true.mpr
      ⟨normOne sz p, List.mem_map_of_mem _ hp, by simp [normOne, hpnone]⟩)]
    simp [Bind.bind, Except.bind, throw, throwThe, MonadExceptOf.throw]

/-- **C7 witness** — the `"1.5"` keyring's registry id is `parseInt "1.5"`,
and a map whose id `"x"` has no integer prefix is rejected with
`InvalidKeyId`. -/
theorem C7_parseint_ids_witness :
    c7Kr.keys.map (fun k => k.id) = c7Keys.map (fun p => jsParseInt p.1) ∧
    keyring [("x", SecretInput.buf wSecretBytes)] wOpts = .error .invalidKeyId :=
  ⟨((C7_parseint_ids c7Keys wOpts).1 c7Kr (by decide)).1,
   (C7_parseint_ids [("x", SecretInput.buf wSecretBytes)] wOpts).2 [] 16 (by decide)
     (by decide) (by decide) (by decide)
     ⟨("x", SecretInput.buf wSecretBytes), by decide, by decide⟩⟩

/-- **C8 counterexample** — the distinct JS object keys `"1"` and `"01"`
both parse to id 1; the constructor accepts the map and builds a registry
whose two entries share the id, so construction does not validate
uniqueness of ids. -/
theorem C8_counterexample :
    ("1" : String) ≠ "01" ∧
    keyring c8Keys wOpts = .ok c8Kr ∧
    c8Kr.keys.map (fun k => k.id) = [some 1, some 1] ∧
    ¬ c8Kr.keys.Pairwise (fun a b => a.id ≠ b.id) := by
  refine ⟨by decide, by decide, by decide, ?_⟩
  intro h
  simp only [c8Kr] at h
  rw [List.pairwise_cons] at h
  exact h.1
    { id := some 1,
      signingKey := (List.range 16).map (fun i => i + 100),
      encryptionKey := (List.range 16).map (fun i => i + 116) }
    (by simp) (by decide)

/-- **C8 (amended)** — construction validates only non-emptiness and
`parseInt`-parsability of ids, not uniqueness: every nonempty map with a
present salt, supported algorithm, correct secret lengths and parseable ids
is accepted regardless of duplicate parsed ids, and the registry keeps one
entry per input pair in order. -/
theorem C8_no_uniqueness_validation (keysIn : List (String × SecretInput))
    (opts : OptionsIn) (salt : JsStr) (sz : Nat)
    (hsalt : opts.salt = some salt)
    (hks : keySizes (opts.encryption.getD "aes-128-cbc") = some sz)
    (hlen : ∀ p ∈ keysIn, (keyBuffer p.2).length = sz * 2)
    (hne : keysIn ≠ [])
    (hids : ∀ p ∈ keysIn, jsParseInt p.1 ≠ none) :
    keyring keysIn opts = .ok
      { keys := keysIn.map (normOne sz),
        encryption := opts.encryption.getD "aes-128-cbc", salt := salt } := by
  rw [keyring_normalized keysIn opts salt sz hsalt hks hlen]
  unfold validateKeyring
  rw [if_neg (fun h : (keysIn.map (normOne sz)).length = 0 =>
    hne (List.length_eq_zero.mp (by rw [List.length_map] at h; exact h)))]
  rw [if_neg (fun h => ?_)]
  · simp [Bind.bind, Except.bind, pure, Except.pure]
  · obtain ⟨x, hx, hxid⟩ := List.any_eq_true.mp h
    obtain ⟨q, hq, rfl⟩ := List.mem_map.mp hx
    simp only [normOne, decide_eq_true_eq] at hxid
    exact hids q hq hxid

/-- **C8 witness** — the duplicate-id map `c8Keys` is accepted, with both
entries kept. -/
theorem C8_no_uniqueness_validation_witness :
    keyring c8Keys wOpts = .ok
      { keys := c8Keys.map (normOne 16),
        encryption := "aes-128-cbc", salt := [] } :=
  C8_no_uniqueness_validation c8Keys wOpts [] 16 (by decide) (by decide)
    (by decide) (by decide) (by decide)

/-- **C9 counterexample** — the requested value `"1.9"` is not the exact
integer id of any key, yet the lookup resolves it (via `parseInt` on both
sides) to the key with id 1 — refuting "no requested value other than the
exact integer id resolves to a key". -/
theorem C9_counterexample :
    jsParseInt "1.9" = some 1 ∧
    JsVal.str "1.9" ≠ JsVal.num (some 1) ∧
    findKey [c9Key] (.str "1.9") = .ok c9Key :=
  ⟨by decide, by decide, by decide⟩

/-- **C9 (amended)** — `findKey` compares `parseInt` of the stored id with
`parseInt` of the requested value: an integer request resolves only to a
key with exactly that id and fails with `UnknownKeyId` when no key has it,
but a string request behaves like the integer its `parseInt` yields, so
strings with a matching integer prefix (such as `"1.9"`) also resolve. -/
theorem C9_find_key_parseint (keys : List KeyMaterial) :
    (∀ (n : Int) (k : KeyMaterial), findKey keys (.num (some n)) = .ok k →
      k ∈ keys ∧ k.id = some n) ∧
    (∀ n : Int, (∀ k ∈ keys, k.id ≠ some n) →
      findKey keys (.num (some n)) = .error .unknownKeyId) ∧
    (∀ s : String, findKey keys (.str s) = findKey keys (.num (jsParseInt s))) := by
  refine ⟨?_, ?_, ?_⟩
  · intro n k h
    unfold findKey at h
    cases hf : keys.find? (fun k => jsStrictEq k.id (jsParseIntOfVal (.num (some n)))) with
    | none =>
      rw [hf] at h
      cases h
    | some q =>
      rw [hf] at h
      have h2 : Except.ok (ε := KeyringError) q = Except.ok k := h
      cases Except.ok.inj h2
      have hpq := List.find?_some hf
      exact ⟨List.mem_of_find?_eq_some hf, jsStrictEq_some.mp (by exact hpq)⟩
  · intro n hall
    unfold findKey
    have hf : keys.find? (fun k => jsStrictEq k.id (jsParseIntOfVal (.num (some n)))) = none :=
      List.find?_eq_none.mpr (fun x hx hpx => hall x hx (jsStrictEq_some.mp hpx))
    rw [hf]
    rfl
  · intro s
    rfl

/-- **C9 witness** — on the one-key registry with id 1: requesting the
absent integer id 2 fails with `UnknownKeyId`, and a string request behaves
like its `parseInt` value. -/
theorem C9_find_key_parseint_witness :
    findKey [c9Key] (.num (some 2)) = .error .unknownKeyId ∧
    findKey [c9Key] (.str "01") = findKey [c9Key] (.num (jsParseInt "01")) :=
  ⟨(C9_find_key_parseint [c9Key]).2.1 2 (by decide),
   (C9_find_key_parseint [c9Key]).2.2 "01"⟩

/-- **C2 witness** — applying the amended theorem to the concrete envelope
of `encrypt("42")` with bit 0 of HMAC byte 0 flipped: decrypt fails with the
integrity error and returns no plaintext. -/
theorem C2_tamper_detection_witness :
    (krDecrypt toyCipher wKr (base64Encode (flipBit (base64Decode wEnv) 0 0))
      (.num (some 0))).1 = .error .integrityError :=
  (C2_tamper_detection toyCipher [("0", SecretInput.buf wSecretBytes)] wOpts wKr wKey0
    wIv (strCp "42") wEnv (some 0) wDg 0 0 (by decide) (by unfold wKr; simp) (by decide)
    (by decide) (by decide) (by decide) (by decide) (by decide) (by decide)
    (Or.inl (by decide)) (fun h => absurd h (by decide))).2.1 (by decide)

end Keyring
